import Mathlib

/-!
# ov-cam: the UART frame-transfer protocol of `src/uart-transfer/main.cpp`

A shallow embedding of the transfer code: the checksum engine (`compute_crc32`),
the little-endian encoders (`write_le16`, `write_le32`), the header and chunk
encoders (`send_frame_header`, `send_chunk_packet`) and the orchestrator
(`capture_and_send_frame`).

Conventions of the embedding.
* A byte is a natural number below 256; `uint16_t` / `uint32_t` values are
  natural numbers, reduced `% 2^16` / `% 2^32` wherever the C code converts or
  can wrap (the target is a 32-bit ESP32, so `unsigned int` and `size_t` are 32 bits).
* A pointer into a buffer is the list of the bytes from that position on.
* Side effects are recorded, in order, in the event trace of a `World`.
* A function returns `none` when it would read past the end of a buffer, or
  when the chunk loop is not finished within the given number of iterations.
-/

namespace OvCam

/-! ## Constants (main.cpp, lines 10-13) -/

def MAGIC : Nat := 0xA5A5A5A5
def FRAME_HEADER : Nat := 0x01
def CHUNK_PACKET : Nat := 0x02
def CHUNK_SIZE : Nat := 512

/-! ## Fixed-width arithmetic -/

/-- Conversion to `uint16_t`. -/
def u16 (n : Nat) : Nat := n % 2 ^ 16

/-- Conversion to `uint32_t`. -/
def u32 (n : Nat) : Nat := n % 2 ^ 32

/-- Addition of two `uint32_t` values. -/
def u32_add (a b : Nat) : Nat := (a + b) % 2 ^ 32

/-- Subtraction of two `uint32_t` values (wraps below zero). -/
def u32_sub (a b : Nat) : Nat := (a % 2 ^ 32 + 2 ^ 32 - b % 2 ^ 32) % 2 ^ 32

/-- Multiplication of two `uint32_t` values. -/
def u32_mul (a b : Nat) : Nat := (a * b) % 2 ^ 32

/-! ## The checksum table -/

/-- Modelled from the spec: the header `crc32_table.h` that holds `crc_table` is not among
the sources. One iteration of the table construction: shift right, and XOR with the
polynomial `0xEDB88320` when the low bit was set. -/
def crc_table_iter (c : Nat) : Nat :=
  if c % 2 = 1 then (c >>> 1) ^^^ 0xEDB88320 else c >>> 1

/-- Modelled from the spec: the header `crc32_table.h` is not among the sources. The table
entry of the byte value `i`: 8 iterations of `crc_table_iter`. -/
def crc_table_entry (i : Nat) : Nat :=
  crc_table_iter (crc_table_iter (crc_table_iter (crc_table_iter
    (crc_table_iter (crc_table_iter (crc_table_iter (crc_table_iter i)))))))

/-- Modelled from the spec: the header `crc32_table.h` is not among the sources. The table
has exactly 256 entries, one for each byte value 0..255. -/
def crc_table : List Nat := (List.range 256).map crc_table_entry

/-! ## Checksum engine (main.cpp, lines 15-22) -/

/-- The loop `while (len--) crc = (crc >> 8) ^ crc_table[(crc ^ *data++) & 0xFF];`. -/
def crc32_loop : Nat → List Nat → Nat → Option Nat
  | 0, _, crc => some crc
  | _ + 1, [], _ => none
  | len + 1, b :: data, crc =>
      crc32_loop len data ((crc >>> 8) ^^^ crc_table.getD ((crc ^^^ b) &&& 0xFF) 0)

/-- The function `compute_crc32(data, len)`. -/
def compute_crc32 (data : List Nat) (len : Nat) : Option Nat :=
  (crc32_loop len data 0xFFFFFFFF).map (fun crc => crc ^^^ 0xFFFFFFFF)

/-! ## The world: serial sink, camera driver, delays -/

/-- The frame buffer record `camera_fb_t` of the camera driver: the fields the code uses. -/
structure camera_fb_t where
  buf : List Nat
  len : Nat
deriving DecidableEq

/-- The observable actions of the program, as they happen. -/
inductive Event where
  | sensor_get
  | set_framesize
  | fb_get
  | fb_return (fb : camera_fb_t)
  | delay (ms : Nat)
  | serial_write (bytes : List Nat)
  | serial_flush
deriving DecidableEq

/-- The state threaded through the program: the events so far (oldest first) and the number
of `esp_camera_fb_get` calls made so far. -/
structure World where
  trace : List Event
  fb_gets : Nat
deriving DecidableEq

/-- Append one event to the trace. -/
def World.emit (w : World) (e : Event) : World :=
  { w with trace := w.trace ++ [e] }

/-- The bytes written by a list of events, in order. -/
def serial_of : List Event → List Nat
  | [] => []
  | Event.serial_write bytes :: es => bytes ++ serial_of es
  | _ :: es => serial_of es

/-- The number of `esp_camera_fb_get` calls among a list of events. -/
def count_fb_get : List Event → Nat
  | [] => 0
  | Event.fb_get :: es => count_fb_get es + 1
  | _ :: es => count_fb_get es

/-- The buffers given back by `esp_camera_fb_return` among a list of events, in order. -/
def returned_of : List Event → List camera_fb_t
  | [] => []
  | Event.fb_return fb :: es => fb :: returned_of es
  | _ :: es => returned_of es

/-- The call `Serial.write(buf, n)`: the first `n` bytes at `buf` go to the sink. -/
def Serial_write (buf : List Nat) (n : Nat) (w : World) : Option World :=
  if n ≤ buf.length then some (w.emit (Event.serial_write (buf.take n))) else none

/-- The call `Serial.write((uint8_t)b)`. -/
def Serial_write_byte (b : Nat) (w : World) : World :=
  w.emit (Event.serial_write [b % 2 ^ 8])

/-- The call `Serial.flush()`. -/
def Serial_flush (w : World) : World := w.emit Event.serial_flush

/-- The call `delay(ms)`. -/
def delay (ms : Nat) (w : World) : World := w.emit (Event.delay ms)

/-- The call `esp_camera_sensor_get()`; the code uses the handle without a null check. -/
def esp_camera_sensor_get (w : World) : World := w.emit Event.sensor_get

/-- The call `s->set_framesize(s, FRAMESIZE_QXGA)`. -/
def set_framesize (w : World) : World := w.emit Event.set_framesize

/-- The call `esp_camera_fb_get()`: `cam k` is what the driver answers to the `k`-th call
(`none` is the null pointer). -/
def esp_camera_fb_get (cam : Nat → Option camera_fb_t) (w : World) :
    Option camera_fb_t × World :=
  (cam w.fb_gets, { trace := w.trace ++ [Event.fb_get], fb_gets := w.fb_gets + 1 })

/-- The call `esp_camera_fb_return(fb)`. -/
def esp_camera_fb_return (fb : camera_fb_t) (w : World) : World :=
  w.emit (Event.fb_return fb)

/-! ## Primitive encoders (main.cpp, lines 24-34) -/

/-- The function `write_le32(v)`. -/
def write_le32 (v : Nat) (w : World) : Option World :=
  let b := [v &&& 0xFF, (v >>> 8) &&& 0xFF, (v >>> 16) &&& 0xFF, (v >>> 24) &&& 0xFF]
  Serial_write b 4 w

/-- The function `write_le16(v)`. -/
def write_le16 (v : Nat) (w : World) : Option World :=
  let b := [v &&& 0xFF, (v >>> 8) &&& 0xFF]
  Serial_write b 2 w

/-! ## Frame header encoder (main.cpp, lines 36-44) -/

/-- The function `send_frame_header(total_size, chunk_size, total_chunks)`. -/
def send_frame_header (total_size chunk_size total_chunks : Nat) (w : World) :
    Option World := do
  let header_magic :=
    [MAGIC &&& 0xFF, (MAGIC >>> 8) &&& 0xFF, (MAGIC >>> 16) &&& 0xFF, (MAGIC >>> 24) &&& 0xFF]
  let w ← Serial_write header_magic 4 w
  let w := Serial_write_byte FRAME_HEADER w
  let w ← write_le32 total_size w
  let w ← write_le16 chunk_size w
  write_le16 total_chunks w

/-! ## Chunk encoder (main.cpp, lines 46-57) -/

/-- The function `send_chunk_packet(chunk_idx, payload, payload_len)`. -/
def send_chunk_packet (chunk_idx : Nat) (payload : List Nat) (payload_len : Nat)
    (w : World) : Option World := do
  let magic_bytes :=
    [MAGIC &&& 0xFF, (MAGIC >>> 8) &&& 0xFF, (MAGIC >>> 16) &&& 0xFF, (MAGIC >>> 24) &&& 0xFF]
  let w ← Serial_write magic_bytes 4 w
  let w := Serial_write_byte CHUNK_PACKET w
  let w ← write_le16 chunk_idx w
  let w ← write_le16 payload_len w
  let crc ← compute_crc32 payload payload_len
  let w ← write_le32 crc w
  let w ← Serial_write payload payload_len w
  some (Serial_flush w)

/-! ## Transfer orchestrator (main.cpp, lines 100-122) -/

/-- The loop of lines 104-108, `n` iterations to go: acquire a frame, give it back at once
when there is one, wait 30 ms. -/
def discard_frames (cam : Nat → Option camera_fb_t) : Nat → World → World
  | 0, w => w
  | n + 1, w =>
      let w :=
        match esp_camera_fb_get cam w with
        | (some old_fb, w) => esp_camera_fb_return old_fb w
        | (none, w) => w
      discard_frames cam n (delay 30 w)

/-- Line 113: `uint16_t total_chunks = (total_size + payload_chunk - 1) / payload_chunk;`
(the arithmetic is done in `uint32_t`, the result converted to `uint16_t`). -/
def total_chunks_of (total_size payload_chunk : Nat) : Nat :=
  u16 (u32_sub (u32_add total_size payload_chunk) 1 / payload_chunk)

/-- Line 117: the offset `(uint32_t)i * payload_chunk` of chunk `i`. -/
def chunk_offset (payload_chunk i : Nat) : Nat := u32_mul i payload_chunk

/-- Line 117: `this_len = (uint16_t)min((uint32_t)payload_chunk,
(uint32_t)(total_size - (uint32_t)i * payload_chunk))`. -/
def this_len_of (total_size payload_chunk i : Nat) : Nat :=
  u16 (min (u32 payload_chunk) (u32_sub total_size (chunk_offset payload_chunk i)))

/-- The loop of lines 116-120, entered with loop variable `i`; `fuel` bounds the number of
iterations still allowed. -/
def send_chunks (fb : camera_fb_t) (total_size payload_chunk total_chunks : Nat) :
    Nat → Nat → World → Option World
  | 0, i, w => if i < total_chunks then none else some w
  | fuel + 1, i, w =>
      if i < total_chunks then do
        let this_len := this_len_of total_size payload_chunk i
        let w ← send_chunk_packet i (fb.buf.drop (chunk_offset payload_chunk i)) this_len w
        let w := delay 5 w
        send_chunks fb total_size payload_chunk total_chunks fuel (u16 (i + 1)) w
      else some w

/-- The function `capture_and_send_frame()`. -/
def capture_and_send_frame (cam : Nat → Option camera_fb_t) (fuel : Nat) (w : World) :
    Option World :=
  let w := esp_camera_sensor_get w
  let w := set_framesize w
  let w := discard_frames cam 3 w
  match esp_camera_fb_get cam w with
  | (none, w) => some w
  | (some fb, w) => do
      let total_size := u32 fb.len
      let payload_chunk := u16 CHUNK_SIZE
      let total_chunks := total_chunks_of total_size payload_chunk
      let w ← send_frame_header total_size payload_chunk total_chunks w
      let w ← send_chunks fb total_size payload_chunk total_chunks fuel 0 w
      some (esp_camera_fb_return fb w)

/-! ## Definitions that follow the spec's words

They are what the code is compared with; none of them is used by the code above. -/

/-- The nine ASCII bytes of "123456789" (spec section 8, known-answer test). -/
def check_input : List Nat := [0x31, 0x32, 0x33, 0x34, 0x35, 0x36, 0x37, 0x38, 0x39]

/-- Spec section 4.1, bit-at-a-time reference: one shift of the reflected register, with the
polynomial `0xEDB88320` XORed in when the bit shifted out was set. -/
def crc32_ref_shift (crc : Nat) : Nat :=
  (crc / 2) ^^^ (if crc &&& 1 = 1 then 0xEDB88320 else 0)

/-- Spec section 4.1, bit-at-a-time reference: a byte is XORed into the low end of the
register, which is then shifted 8 times. -/
def crc32_ref_byte (crc b : Nat) : Nat :=
  crc32_ref_shift^[8] (crc ^^^ b)

/-- Spec section 4.1: the standard reflected CRC-32, initial register `0xFFFFFFFF`, final
value XORed with `0xFFFFFFFF`, computed one bit at a time without a table. -/
def crc32_reference (B : List Nat) : Nat :=
  (B.foldl crc32_ref_byte 0xFFFFFFFF) ^^^ 0xFFFFFFFF

/-- The buffer `B` with bit `bit` of the byte at position `pos` inverted. -/
def flip_bit : List Nat → Nat → Nat → List Nat
  | [], _, _ => []
  | b :: bs, 0, bit => (b ^^^ (1 <<< bit)) :: bs
  | b :: bs, pos + 1, bit => b :: flip_bit bs pos bit

/-- A buffer of bytes: every element is below 256. -/
def is_bytes (B : List Nat) : Prop := ∀ b ∈ B, b < 256

instance (B : List Nat) : Decidable (is_bytes B) := by
  unfold is_bytes; infer_instance

/-- The value `ceil(L / C)` of the spec, in unbounded arithmetic. -/
def ceil_div (L C : Nat) : Nat := (L + C - 1) / C

/-- The value of a little-endian byte string (least significant byte first). -/
def decode_le : List Nat → Nat
  | [] => 0
  | b :: bs => b + 256 * decode_le bs

/-- The checksum of a whole byte string: the loop of `compute_crc32` run over all of `B`. -/
def crc32_of (B : List Nat) : Nat :=
  (B.foldl (fun crc b => (crc >>> 8) ^^^ crc_table.getD ((crc ^^^ b) &&& 0xFF) 0) 0xFFFFFFFF)
    ^^^ 0xFFFFFFFF

/-- Spec section 6: an unsigned 16-bit value on the wire, least significant byte first. -/
def le16 (v : Nat) : List Nat := [v % 256, v / 256 % 256]

/-- Spec section 6: an unsigned 32-bit value on the wire, least significant byte first. -/
def le32 (v : Nat) : List Nat := [v % 256, v / 256 % 256, v / 65536 % 256, v / 16777216 % 256]

/-- Spec section 6: the header packet: marker, tag `0x01`, `total_size` (u32), `chunk_size`
(u16), `total_chunks` (u16). -/
def header_packet (total_size chunk_size total_chunks : Nat) : List Nat :=
  [0xA5, 0xA5, 0xA5, 0xA5, 0x01] ++ le32 total_size ++ le16 chunk_size ++ le16 total_chunks

/-- Spec section 6: the chunk packet: marker, tag `0x02`, `chunk_index` (u16), `payload_len`
(u16), `crc32` (u32) of the payload, then the payload. -/
def chunk_packet (chunk_index : Nat) (payload : List Nat) : List Nat :=
  [0xA5, 0xA5, 0xA5, 0xA5, 0x02] ++ le16 chunk_index ++ le16 payload.length
    ++ le32 (crc32_of payload) ++ payload

/-- A header packet as a receiver reads it. -/
structure Header where
  total_size : Nat
  chunk_size : Nat
  total_chunks : Nat
deriving DecidableEq

/-- A chunk packet as a receiver reads it. -/
structure Chunk where
  chunk_index : Nat
  payload_len : Nat
  crc32 : Nat
  payload : List Nat
deriving DecidableEq

/-- A receiver for the wire format of spec section 6: read one header packet off the front of
a byte stream; the result is the header and the rest of the stream. -/
def parse_header (bs : List Nat) : Option (Header × List Nat) :=
  if bs.take 5 = [0xA5, 0xA5, 0xA5, 0xA5, 0x01] ∧ 13 ≤ bs.length then
    some ({ total_size := decode_le ((bs.drop 5).take 4),
            chunk_size := decode_le ((bs.drop 9).take 2),
            total_chunks := decode_le ((bs.drop 11).take 2) }, bs.drop 13)
  else none

/-- A receiver for the wire format of spec section 6: read one chunk packet off the front of a
byte stream; the result is the chunk and the rest of the stream. -/
def parse_chunk (bs : List Nat) : Option (Chunk × List Nat) :=
  if bs.take 5 = [0xA5, 0xA5, 0xA5, 0xA5, 0x02] ∧
      13 + decode_le ((bs.drop 7).take 2) ≤ bs.length then
    some ({ chunk_index := decode_le ((bs.drop 5).take 2),
            payload_len := decode_le ((bs.drop 7).take 2),
            crc32 := decode_le ((bs.drop 9).take 4),
            payload := (bs.drop 13).take (decode_le ((bs.drop 7).take 2)) },
          bs.drop (13 + decode_le ((bs.drop 7).take 2)))
  else none

/-- A receiver for the wire format: read chunk packets until the stream is used up; `none`
when something other than a chunk packet is met. At most `fuel` packets are read. -/
def parse_chunks : Nat → List Nat → Option (List Chunk)
  | _, [] => some []
  | 0, _ :: _ => none
  | fuel + 1, b :: bs =>
      match parse_chunk (b :: bs) with
      | none => none
      | some (c, rest) => (parse_chunks fuel rest).map (fun cs => c :: cs)

/-- A receiver for the wire format: a whole transfer is one header packet followed by chunk
packets and nothing else. -/
def receive (bs : List Nat) : Option (Header × List Chunk) :=
  match parse_header bs with
  | none => none
  | some (h, rest) => (parse_chunks rest.length rest).map (fun cs => (h, cs))

/-- The events of one call of `send_frame_header`. -/
def header_events (total_size chunk_size total_chunks : Nat) : List Event :=
  [Event.serial_write [0xA5, 0xA5, 0xA5, 0xA5], Event.serial_write [0x01],
   Event.serial_write (le32 total_size), Event.serial_write (le16 chunk_size),
   Event.serial_write (le16 total_chunks)]

/-- The events of one call of `send_chunk_packet` whose payload bytes are `payload`. -/
def chunk_events (chunk_idx : Nat) (payload : List Nat) : List Event :=
  [Event.serial_write [0xA5, 0xA5, 0xA5, 0xA5], Event.serial_write [0x02],
   Event.serial_write (le16 chunk_idx), Event.serial_write (le16 payload.length),
   Event.serial_write (le32 (crc32_of payload)), Event.serial_write payload,
   Event.serial_flush]

/-- The events of `n` iterations of the loop of lines 104-108, the first of which makes the
`k`-th call of `esp_camera_fb_get`. -/
def discard_events (cam : Nat → Option camera_fb_t) : Nat → Nat → List Event
  | 0, _ => []
  | n + 1, k =>
      [Event.fb_get] ++ (match cam k with
        | some old_fb => [Event.fb_return old_fb]
        | none => []) ++ [Event.delay 30] ++ discard_events cam n (k + 1)

/-- The bytes of chunk `i` of a frame: `this_len` bytes from offset `i * payload_chunk`. -/
def chunk_payload (fb : camera_fb_t) (total_size payload_chunk i : Nat) : List Nat :=
  (fb.buf.drop (chunk_offset payload_chunk i)).take (this_len_of total_size payload_chunk i)

/-- The events of `n` iterations of the loop of lines 116-120, the first with index `i`. -/
def chunks_events (fb : camera_fb_t) (total_size payload_chunk : Nat) : Nat → Nat → List Event
  | 0, _ => []
  | n + 1, i =>
      chunk_events i (chunk_payload fb total_size payload_chunk i) ++ [Event.delay 5]
        ++ chunks_events fb total_size payload_chunk n (i + 1)

/-- The chunk a receiver reads from `chunk_packet chunk_index payload`. -/
def chunk_of (chunk_index : Nat) (payload : List Nat) : Chunk :=
  { chunk_index := chunk_index, payload_len := payload.length, crc32 := crc32_of payload,
    payload := payload }

/-- The events of one run of `capture_and_send_frame` that starts when `k` calls of
`esp_camera_fb_get` have been made, up to and including the acquisition of the frame. -/
def acquire_events (cam : Nat → Option camera_fb_t) (k : Nat) : List Event :=
  [Event.sensor_get, Event.set_framesize] ++ discard_events cam 3 k ++ [Event.fb_get]

/-- The events of lines 111-120 for the frame `fb`: the header, then the chunks. -/
def transfer_events (fb : camera_fb_t) : List Event :=
  header_events (u32 fb.len) 512 (total_chunks_of (u32 fb.len) 512)
    ++ chunks_events fb (u32 fb.len) 512 (total_chunks_of (u32 fb.len) 512) 0

/-- A sample frame: 1000 bytes, the byte at position `k` being `k % 256`. -/
def sample_frame : camera_fb_t :=
  { buf := (List.range 1000).map (fun k => k % 256), len := 1000 }

/-- A sample driver: every call of `esp_camera_fb_get` yields `sample_frame`. -/
def sample_cam : Nat → Option camera_fb_t := fun _ => some sample_frame

/-- The world before anything has happened. -/
def World.init : World := { trace := [], fb_gets := 0 }

/-- A small sample frame of 3 bytes. -/
def small_frame : camera_fb_t := { buf := [1, 2, 3], len := 3 }

/-- A sample driver: every call of `esp_camera_fb_get` yields `small_frame`. -/
def small_cam : Nat → Option camera_fb_t := fun _ => some small_frame

/-- A frame of 65536 * 512 = 33,554,432 zero bytes. -/
def big_frame : camera_fb_t := { buf := List.replicate 33554432 0, len := 33554432 }

end OvCam

/-! # Lemmas and theorems -/

namespace OvCam

/-! ## The checksum table is linear over XOR -/

theorem shiftRight_xor (x y k : Nat) : (x ^^^ y) >>> k = (x >>> k) ^^^ (y >>> k) := by
  apply Nat.eq_of_testBit_eq
  intro i
  simp [Nat.testBit_shiftRight, Nat.testBit_xor]

theorem crc_table_iter_xor (x y : Nat) :
    crc_table_iter (x ^^^ y) = crc_table_iter x ^^^ crc_table_iter y := by
  unfold crc_table_iter
  rw [Nat.xor_mod_two_eq, shiftRight_xor]
  rcases Nat.mod_two_eq_zero_or_one x with hx | hx <;>
  rcases Nat.mod_two_eq_zero_or_one y with hy | hy
  · have : (x + y) % 2 = 0 := by omega
    simp [hx, hy, this]
  · have : (x + y) % 2 = 1 := by omega
    simp [hx, hy, this, Nat.xor_assoc]
  · have : (x + y) % 2 = 1 := by omega
    simp only [hx, hy, this, if_true]
    simp
    ac_rfl
  · have : (x + y) % 2 = 0 := by omega
    simp only [hx, hy, this, if_true]
    simp
    rw [Nat.xor_assoc, Nat.xor_comm (y >>> 1), ← Nat.xor_assoc, ← Nat.xor_assoc,
      Nat.xor_assoc (x >>> 1), Nat.xor_self]
    simp

theorem crc_table_entry_xor (x y : Nat) :
    crc_table_entry (x ^^^ y) = crc_table_entry x ^^^ crc_table_entry y := by
  simp only [crc_table_entry, crc_table_iter_xor]

theorem crc_table_iter_shiftLeft (h k : Nat) : crc_table_iter (h <<< (k + 1)) = h <<< k := by
  unfold crc_table_iter
  have h0 : (h <<< (k + 1)) % 2 = 0 := by
    rw [Nat.shiftLeft_eq, pow_succ, ← Nat.mul_assoc]; omega
  have h1 : (h <<< (k + 1)) >>> 1 = h <<< k := by
    rw [Nat.shiftLeft_eq, Nat.shiftLeft_eq, Nat.shiftRight_eq_div_pow, pow_succ,
      ← Nat.mul_assoc]
    omega
  simp [h0, h1]

theorem crc_table_entry_shiftLeft (h : Nat) : crc_table_entry (h <<< 8) = h := by
  simp only [crc_table_entry, crc_table_iter_shiftLeft]
  simp

theorem split_low_byte (x : Nat) : x = ((x >>> 8) <<< 8) ^^^ (x % 256) := by
  apply Nat.eq_of_testBit_eq
  intro i
  have : (256 : Nat) = 2 ^ 8 := by norm_num
  rw [this, Nat.testBit_xor, Nat.testBit_shiftLeft, Nat.testBit_shiftRight,
    Nat.testBit_mod_two_pow]
  by_cases hi : i < 8
  · simp [hi, Nat.not_le.mpr hi]
  · have : 8 + (i - 8) = i := by omega
    simp [hi, Nat.le_of_not_lt hi, this]

/-- Eight shifts of a whole register are the register shifted by a byte, XORed with the
eight shifts of its low byte: the identity a byte-wise table lookup rests on. -/
theorem crc_table_entry_split (x : Nat) :
    crc_table_entry x = (x >>> 8) ^^^ crc_table_entry (x % 256) := by
  conv_lhs => rw [split_low_byte x]
  rw [crc_table_entry_xor, crc_table_entry_shiftLeft]

theorem crc_table_getD (i : Nat) (h : i < 256) : crc_table.getD i 0 = crc_table_entry i := by
  have hl : i < crc_table.length := by simp [crc_table, h]
  rw [List.getD_eq_getElem _ _ hl]
  simp [crc_table]

theorem and_255 (x : Nat) : x &&& 0xFF = x % 256 :=
  Nat.and_pow_two_sub_one_eq_mod x 8

/-- One iteration of the loop of `compute_crc32` is eight shifts of `crc ^ b`. -/
theorem crc_update_eq (crc b : Nat) (hb : b < 256) :
    (crc >>> 8) ^^^ crc_table.getD ((crc ^^^ b) &&& 0xFF) 0 = crc_table_entry (crc ^^^ b) := by
  rw [and_255, crc_table_getD _ (Nat.mod_lt _ (by norm_num)), crc_table_entry_split (crc ^^^ b),
    shiftRight_xor]
  have : b >>> 8 = 0 := by
    rw [Nat.shiftRight_eq_div_pow]; exact Nat.div_eq_of_lt hb
  rw [this, Nat.xor_zero]

theorem crc32_ref_shift_eq (c : Nat) : crc32_ref_shift c = crc_table_iter c := by
  unfold crc32_ref_shift crc_table_iter
  rw [Nat.and_one_is_mod, Nat.shiftRight_eq_div_pow]
  split <;> simp

theorem crc32_ref_byte_eq (crc b : Nat) : crc32_ref_byte crc b = crc_table_entry (crc ^^^ b) := by
  have hf : crc32_ref_shift = crc_table_iter := funext crc32_ref_shift_eq
  unfold crc32_ref_byte crc_table_entry
  rw [hf]
  rfl

/-- The loop of `compute_crc32` over a whole buffer of bytes is the bit-at-a-time fold. -/
theorem crc32_loop_eq_ref (B : List Nat) (hB : is_bytes B) (crc : Nat) :
    crc32_loop B.length B crc = some (B.foldl crc32_ref_byte crc) := by
  induction B generalizing crc with
  | nil => rfl
  | cons b bs ih =>
    have hb : b < 256 := hB b (List.mem_cons_self _ _)
    have hbs : is_bytes bs := fun x hx => hB x (List.mem_cons_of_mem _ hx)
    simp only [List.length_cons, crc32_loop, List.foldl_cons]
    rw [crc_update_eq crc b hb, ih hbs, crc32_ref_byte_eq]

theorem compute_crc32_eq_ref (B : List Nat) (hB : is_bytes B) :
    compute_crc32 B B.length = some (crc32_reference B) := by
  simp [compute_crc32, crc32_reference, crc32_loop_eq_ref B hB]

/-! ## The register update is injective -/

theorem crc_table_iter_lt (x : Nat) (hx : x < 2 ^ 32) : crc_table_iter x < 2 ^ 32 := by
  unfold crc_table_iter
  have h1 : x >>> 1 < 2 ^ 32 := by
    rw [Nat.shiftRight_eq_div_pow]; omega
  split
  · exact Nat.xor_lt_two_pow h1 (by norm_num)
  · exact h1

theorem crc_table_iter_inj (x y : Nat) (hx : x < 2 ^ 32) (hy : y < 2 ^ 32)
    (h : crc_table_iter x = crc_table_iter y) : x = y := by
  have hsx : x >>> 1 < 2 ^ 31 := by
    rw [Nat.shiftRight_eq_div_pow]; omega
  have hsy : y >>> 1 < 2 ^ 31 := by
    rw [Nat.shiftRight_eq_div_pow]; omega
  have hP : Nat.testBit 0xEDB88320 31 = true := by decide
  have hbx : (x >>> 1).testBit 31 = false := Nat.testBit_lt_two_pow hsx
  have hby : (y >>> 1).testBit 31 = false := Nat.testBit_lt_two_pow hsy
  have hdx := Nat.div_add_mod x 2
  have hdy := Nat.div_add_mod y 2
  unfold crc_table_iter at h
  rcases Nat.mod_two_eq_zero_or_one x with px | px <;>
  rcases Nat.mod_two_eq_zero_or_one y with py | py
  · simp only [px, py] at h
    simp at h
    simp only [Nat.shiftRight_eq_div_pow] at h
    omega
  · simp only [px, py] at h
    simp at h
    have := congrArg (fun n => Nat.testBit n 31) h
    simp only [Nat.testBit_xor, hbx, hby, hP] at this
    simp at this
  · simp only [px, py] at h
    simp at h
    have := congrArg (fun n => Nat.testBit n 31) h
    simp only [Nat.testBit_xor, hbx, hby, hP] at this
    simp at this
  · simp only [px, py, if_true] at h
    have h2 := Nat.xor_left_injective h
    simp only [Nat.shiftRight_eq_div_pow] at h2
    omega

theorem crc_table_entry_lt (x : Nat) (hx : x < 2 ^ 32) : crc_table_entry x < 2 ^ 32 := by
  unfold crc_table_entry
  iterate 8 apply crc_table_iter_lt
  exact hx

theorem crc_table_entry_inj (x y : Nat) (hx : x < 2 ^ 32) (hy : y < 2 ^ 32)
    (h : crc_table_entry x = crc_table_entry y) : x = y := by
  unfold crc_table_entry at h
  have l1 := fun z (hz : z < 2 ^ 32) => crc_table_iter_lt z hz
  have i1 := crc_table_iter_inj
  apply i1 _ _ hx hy
  apply i1 _ _ (l1 _ hx) (l1 _ hy)
  apply i1 _ _ (l1 _ (l1 _ hx)) (l1 _ (l1 _ hy))
  apply i1 _ _ (l1 _ (l1 _ (l1 _ hx))) (l1 _ (l1 _ (l1 _ hy)))
  apply i1 _ _ (l1 _ (l1 _ (l1 _ (l1 _ hx)))) (l1 _ (l1 _ (l1 _ (l1 _ hy))))
  apply i1 _ _ (l1 _ (l1 _ (l1 _ (l1 _ (l1 _ hx))))) (l1 _ (l1 _ (l1 _ (l1 _ (l1 _ hy)))))
  apply i1 _ _ (l1 _ (l1 _ (l1 _ (l1 _ (l1 _ (l1 _ hx))))))
    (l1 _ (l1 _ (l1 _ (l1 _ (l1 _ (l1 _ hy))))))
  apply i1 _ _ (l1 _ (l1 _ (l1 _ (l1 _ (l1 _ (l1 _ (l1 _ hx)))))))
    (l1 _ (l1 _ (l1 _ (l1 _ (l1 _ (l1 _ (l1 _ hy)))))))
  exact h

theorem byte_lt_u32 (b : Nat) (hb : b < 256) : b < 2 ^ 32 := by
  have : (256 : Nat) ≤ 2 ^ 32 := by norm_num
  omega

theorem crc32_ref_byte_lt (s b : Nat) (hs : s < 2 ^ 32) (hb : b < 256) :
    crc32_ref_byte s b < 2 ^ 32 := by
  rw [crc32_ref_byte_eq]
  exact crc_table_entry_lt _ (Nat.xor_lt_two_pow hs (byte_lt_u32 b hb))

theorem crc32_ref_byte_inj_state (s t b : Nat) (hs : s < 2 ^ 32) (ht : t < 2 ^ 32)
    (hb : b < 256) (h : crc32_ref_byte s b = crc32_ref_byte t b) : s = t := by
  rw [crc32_ref_byte_eq, crc32_ref_byte_eq] at h
  have hb32 := byte_lt_u32 b hb
  have := crc_table_entry_inj _ _ (Nat.xor_lt_two_pow hs hb32) (Nat.xor_lt_two_pow ht hb32) h
  exact Nat.xor_left_injective this

theorem crc32_ref_byte_inj_byte (s b c : Nat) (hs : s < 2 ^ 32) (hb : b < 256) (hc : c < 256)
    (h : crc32_ref_byte s b = crc32_ref_byte s c) : b = c := by
  rw [crc32_ref_byte_eq, crc32_ref_byte_eq] at h
  have := crc_table_entry_inj _ _ (Nat.xor_lt_two_pow hs (byte_lt_u32 b hb))
    (Nat.xor_lt_two_pow hs (byte_lt_u32 c hc)) h
  exact Nat.xor_right_injective this

theorem is_bytes_cons {b : Nat} {bs : List Nat} (h : is_bytes (b :: bs)) :
    b < 256 ∧ is_bytes bs :=
  ⟨h b (List.mem_cons_self _ _), fun x hx => h x (List.mem_cons_of_mem _ hx)⟩

theorem crc32_fold_lt (B : List Nat) (hB : is_bytes B) (s : Nat) (hs : s < 2 ^ 32) :
    B.foldl crc32_ref_byte s < 2 ^ 32 := by
  induction B generalizing s with
  | nil => exact hs
  | cons b bs ih =>
    obtain ⟨hb, hbs⟩ := is_bytes_cons hB
    exact ih hbs _ (crc32_ref_byte_lt s b hs hb)

theorem crc32_fold_inj (B : List Nat) (hB : is_bytes B) (s t : Nat) (hs : s < 2 ^ 32)
    (ht : t < 2 ^ 32) (h : B.foldl crc32_ref_byte s = B.foldl crc32_ref_byte t) : s = t := by
  induction B generalizing s t with
  | nil => exact h
  | cons b bs ih =>
    obtain ⟨hb, hbs⟩ := is_bytes_cons hB
    have := ih hbs _ _ (crc32_ref_byte_lt s b hs hb) (crc32_ref_byte_lt t b ht hb) h
    exact crc32_ref_byte_inj_state s t b hs ht hb this

theorem flip_lt (b bit : Nat) (hb : b < 256) (hbit : bit < 8) : b ^^^ (1 <<< bit) < 256 := by
  have h1 : 1 <<< bit < 2 ^ 8 := by
    rw [Nat.shiftLeft_eq, Nat.one_mul]
    exact Nat.pow_lt_pow_right (by norm_num) hbit
  exact Nat.xor_lt_two_pow (n := 8) hb h1

theorem flip_ne (b bit : Nat) : b ^^^ (1 <<< bit) ≠ b := by
  intro h
  have h0 : b ^^^ (1 <<< bit) = b ^^^ 0 := by rw [Nat.xor_zero]; exact h
  have h1 : 1 <<< bit = 0 := Nat.xor_right_injective h0
  rw [Nat.shiftLeft_eq, Nat.one_mul] at h1
  exact absurd h1 (by positivity)

theorem flip_bit_length (B : List Nat) (pos bit : Nat) :
    (flip_bit B pos bit).length = B.length := by
  induction B generalizing pos with
  | nil => rfl
  | cons b bs ih =>
    cases pos with
    | zero => rfl
    | succ p => simp [flip_bit, ih]

theorem flip_bit_is_bytes (B : List Nat) (hB : is_bytes B) (pos bit : Nat) (hbit : bit < 8) :
    is_bytes (flip_bit B pos bit) := by
  induction B generalizing pos with
  | nil => exact hB
  | cons b bs ih =>
    obtain ⟨hb, hbs⟩ := is_bytes_cons hB
    cases pos with
    | zero =>
      intro x hx
      simp only [flip_bit, List.mem_cons] at hx
      rcases hx with rfl | hx
      · exact flip_lt b bit hb hbit
      · exact hbs x hx
    | succ p =>
      intro x hx
      simp only [flip_bit, List.mem_cons] at hx
      rcases hx with rfl | hx
      · exact hb
      · exact ih hbs p x hx

theorem crc32_fold_flip_ne (B : List Nat) (hB : is_bytes B) (pos bit : Nat)
    (hpos : pos < B.length) (hbit : bit < 8) (s : Nat) (hs : s < 2 ^ 32) :
    (flip_bit B pos bit).foldl crc32_ref_byte s ≠ B.foldl crc32_ref_byte s := by
  induction B generalizing pos s with
  | nil => simp at hpos
  | cons b bs ih =>
    obtain ⟨hb, hbs⟩ := is_bytes_cons hB
    cases pos with
    | zero =>
      intro h
      simp only [flip_bit, List.foldl_cons] at h
      have hb2 := flip_lt b bit hb hbit
      have := crc32_fold_inj bs hbs _ _ (crc32_ref_byte_lt s _ hs hb2)
        (crc32_ref_byte_lt s b hs hb) h
      exact flip_ne b bit (crc32_ref_byte_inj_byte s _ _ hs hb2 hb this)
    | succ p =>
      simp only [flip_bit, List.foldl_cons]
      exact ih hbs p (by simpa using hpos) _ (crc32_ref_byte_lt s b hs hb)

theorem crc32_reference_flip_ne (B : List Nat) (hB : is_bytes B) (pos bit : Nat)
    (hpos : pos < B.length) (hbit : bit < 8) :
    crc32_reference (flip_bit B pos bit) ≠ crc32_reference B := by
  intro h
  unfold crc32_reference at h
  exact crc32_fold_flip_ne B hB pos bit hpos hbit _ (by norm_num) (Nat.xor_left_injective h)

/-! ## Little-endian encoding -/

theorem shr_and_255 (v k : Nat) : (v >>> k) &&& 0xFF = v / 2 ^ k % 256 := by
  rw [and_255, Nat.shiftRight_eq_div_pow]

theorem write_le16_eq (v : Nat) (w : World) :
    write_le16 v w = some (w.emit (Event.serial_write (le16 v))) := by
  have hb : [v &&& 0xFF, (v >>> 8) &&& 0xFF] = le16 v := by
    simp [le16, and_255, Nat.shiftRight_eq_div_pow]
  simp only [write_le16, hb, Serial_write]
  simp [le16]

theorem write_le32_eq (v : Nat) (w : World) :
    write_le32 v w = some (w.emit (Event.serial_write (le32 v))) := by
  have hb : [v &&& 0xFF, (v >>> 8) &&& 0xFF, (v >>> 16) &&& 0xFF, (v >>> 24) &&& 0xFF]
      = le32 v := by
    simp [le32, and_255, Nat.shiftRight_eq_div_pow]
  simp only [write_le32, hb, Serial_write]
  simp [le32]

theorem decode_le16 (v : Nat) (hv : v < 2 ^ 16) : decode_le (le16 v) = v := by
  simp only [le16, decode_le]
  omega

theorem decode_le32 (v : Nat) (hv : v < 2 ^ 32) : decode_le (le32 v) = v := by
  simp only [le32, decode_le]
  omega

/-! ## The two encoders -/

theorem magic_bytes_eq :
    [MAGIC &&& 0xFF, (MAGIC >>> 8) &&& 0xFF, (MAGIC >>> 16) &&& 0xFF, (MAGIC >>> 24) &&& 0xFF]
      = [0xA5, 0xA5, 0xA5, 0xA5] := by
  decide

theorem send_frame_header_eq (total_size chunk_size total_chunks : Nat) (w : World) :
    send_frame_header total_size chunk_size total_chunks w =
      some { trace := w.trace ++ header_events total_size chunk_size total_chunks,
             fb_gets := w.fb_gets } := by
  simp only [send_frame_header, magic_bytes_eq]
  simp [Serial_write, Serial_write_byte, write_le16_eq, write_le32_eq,
    World.emit, header_events, FRAME_HEADER]

theorem crc32_loop_take (len : Nat) (data : List Nat) (crc : Nat) (h : len ≤ data.length) :
    crc32_loop len data crc = some ((data.take len).foldl
      (fun crc b => (crc >>> 8) ^^^ crc_table.getD ((crc ^^^ b) &&& 0xFF) 0) crc) := by
  induction len generalizing data crc with
  | zero => simp [crc32_loop]
  | succ n ih =>
    cases data with
    | nil => simp at h
    | cons b bs =>
      simp only [crc32_loop, List.take_succ_cons, List.foldl_cons]
      exact ih bs _ (by simpa using h)

theorem crc32_loop_none (len : Nat) (data : List Nat) (crc : Nat) (h : data.length < len) :
    crc32_loop len data crc = none := by
  induction len generalizing data crc with
  | zero => simp at h
  | succ n ih =>
    cases data with
    | nil => simp [crc32_loop]
    | cons b bs =>
      simp only [crc32_loop]
      exact ih bs _ (by simpa using h)

theorem compute_crc32_eq (data : List Nat) (len : Nat) (h : len ≤ data.length) :
    compute_crc32 data len = some (crc32_of (data.take len)) := by
  simp [compute_crc32, crc32_of, crc32_loop_take len data _ h]

theorem send_chunk_packet_eq (chunk_idx : Nat) (payload : List Nat) (payload_len : Nat)
    (w : World) (h : payload_len ≤ payload.length) :
    send_chunk_packet chunk_idx payload payload_len w =
      some { trace := w.trace ++ chunk_events chunk_idx (payload.take payload_len),
             fb_gets := w.fb_gets } := by
  have hl : (payload.take payload_len).length = payload_len := by
    rw [List.length_take]; omega
  simp only [send_chunk_packet, magic_bytes_eq]
  simp [Serial_write, Serial_write_byte, Serial_flush, write_le16_eq,
    write_le32_eq, compute_crc32_eq payload payload_len h, World.emit, chunk_events,
    CHUNK_PACKET, h, hl]

theorem send_chunk_packet_none (chunk_idx : Nat) (payload : List Nat) (payload_len : Nat)
    (w : World) (h : payload.length < payload_len) :
    send_chunk_packet chunk_idx payload payload_len w = none := by
  simp only [send_chunk_packet, magic_bytes_eq]
  simp [Serial_write, write_le16_eq, compute_crc32,
    crc32_loop_none payload_len payload _ h]

/-! ## Chunk arithmetic (lines 113 and 117) -/

theorem u16_chunk_size : u16 CHUNK_SIZE = 512 := by decide

theorem total_chunks_of_lt (ts pc : Nat) : total_chunks_of ts pc < 2 ^ 16 := by
  unfold total_chunks_of u16
  exact Nat.mod_lt _ (by norm_num)

/-- The chunk count is never more than the frame needs. -/
theorem total_chunks_of_mul_lt (ts : Nat) (hts : ts < 2 ^ 32) :
    total_chunks_of ts 512 * 512 < ts + 512 := by
  unfold total_chunks_of u16 u32_sub u32_add
  norm_num at hts ⊢
  omega

theorem total_chunks_of_small (ts : Nat) (hts : ts ≤ 33553920) :
    total_chunks_of ts 512 = (ts + 511) / 512 := by
  unfold total_chunks_of u16 u32_sub u32_add
  norm_num
  omega

theorem total_chunks_of_large (ts : Nat) (hts : ts < 2 ^ 32) (hl : 33553920 < ts) :
    total_chunks_of ts 512 < (ts + 511) / 512 := by
  unfold total_chunks_of u16 u32_sub u32_add
  norm_num at hts ⊢
  omega

theorem chunk_offset_eq (i : Nat) (hi : i < 2 ^ 16) : chunk_offset 512 i = i * 512 := by
  unfold chunk_offset u32_mul
  norm_num at hi ⊢
  omega

theorem this_len_of_eq (ts i : Nat) (hts : ts < 2 ^ 32) (hi : i * 512 < ts) :
    this_len_of ts 512 i = min 512 (ts - i * 512) := by
  have hi16 : i < 2 ^ 16 ∨ 2 ^ 16 ≤ i := Nat.lt_or_ge _ _
  unfold this_len_of u16 u32 u32_sub chunk_offset u32_mul
  norm_num at hts hi16 ⊢
  omega

/-- Every loop index addresses bytes inside the frame. -/
theorem chunk_in_frame (ts i : Nat) (hts : ts < 2 ^ 32) (hi : i < total_chunks_of ts 512) :
    i * 512 < ts := by
  have := total_chunks_of_mul_lt ts hts
  omega

theorem chunk_not_last (ts i : Nat) (hts : ts < 2 ^ 32) (hi : i + 1 < total_chunks_of ts 512) :
    i * 512 + 512 < ts := by
  have := total_chunks_of_mul_lt ts hts
  omega

theorem chunk_payload_length (fb : camera_fb_t) (ts i : Nat) (hts : ts < 2 ^ 32)
    (hbuf : ts ≤ fb.buf.length) (hi : i < total_chunks_of ts 512) :
    this_len_of ts 512 i ≤ (fb.buf.drop (chunk_offset 512 i)).length := by
  have h1 := chunk_in_frame ts i hts hi
  have h2 := total_chunks_of_lt ts 512
  rw [this_len_of_eq ts i hts h1, chunk_offset_eq i (by omega), List.length_drop]
  omega

/-! ## Traces -/

theorem serial_of_append (a b : List Event) : serial_of (a ++ b) = serial_of a ++ serial_of b := by
  induction a with
  | nil => rfl
  | cons e es ih => cases e <;> simp [serial_of, ih]

theorem count_fb_get_append (a b : List Event) :
    count_fb_get (a ++ b) = count_fb_get a + count_fb_get b := by
  induction a with
  | nil => simp [count_fb_get]
  | cons e es ih =>
    cases e <;> simp [count_fb_get, ih]
    omega

theorem returned_of_append (a b : List Event) :
    returned_of (a ++ b) = returned_of a ++ returned_of b := by
  induction a with
  | nil => rfl
  | cons e es ih => cases e <;> simp [returned_of, ih]

theorem serial_of_header_events (ts cs tc : Nat) :
    serial_of (header_events ts cs tc) = header_packet ts cs tc := by
  simp [header_events, serial_of, header_packet]

theorem serial_of_chunk_events (i : Nat) (p : List Nat) :
    serial_of (chunk_events i p) = chunk_packet i p := by
  simp [chunk_events, serial_of, chunk_packet]

theorem serial_of_discard_events (cam : Nat → Option camera_fb_t) (n k : Nat) :
    serial_of (discard_events cam n k) = [] := by
  induction n generalizing k with
  | zero => rfl
  | succ n ih =>
    simp only [discard_events, serial_of_append, ih]
    cases cam k <;> simp [serial_of]

theorem count_fb_get_discard_events (cam : Nat → Option camera_fb_t) (n k : Nat) :
    count_fb_get (discard_events cam n k) = n := by
  induction n generalizing k with
  | zero => rfl
  | succ n ih =>
    simp only [discard_events, count_fb_get_append, ih]
    cases cam k <;> simp [count_fb_get] <;> omega

theorem count_fb_get_header_events (ts cs tc : Nat) :
    count_fb_get (header_events ts cs tc) = 0 := by
  simp [header_events, count_fb_get]

theorem returned_of_header_events (ts cs tc : Nat) :
    returned_of (header_events ts cs tc) = [] := by
  simp [header_events, returned_of]

theorem count_fb_get_chunks_events (fb : camera_fb_t) (ts pc n i : Nat) :
    count_fb_get (chunks_events fb ts pc n i) = 0 := by
  induction n generalizing i with
  | zero => rfl
  | succ n ih => simp [chunks_events, chunk_events, count_fb_get_append, ih, count_fb_get]

theorem returned_of_chunks_events (fb : camera_fb_t) (ts pc n i : Nat) :
    returned_of (chunks_events fb ts pc n i) = [] := by
  induction n generalizing i with
  | zero => rfl
  | succ n ih => simp [chunks_events, chunk_events, returned_of_append, ih, returned_of]

/-! ## The loops and the whole transfer -/

theorem discard_frames_eq (cam : Nat → Option camera_fb_t) (n : Nat) (w : World) :
    discard_frames cam n w =
      { trace := w.trace ++ discard_events cam n w.fb_gets, fb_gets := w.fb_gets + n } := by
  induction n generalizing w with
  | zero => simp [discard_frames, discard_events]
  | succ n ih =>
    simp only [discard_frames, discard_events, esp_camera_fb_get]
    cases hc : cam w.fb_gets with
    | none =>
      simp only [ih, delay, World.emit]
      simp [Nat.add_assoc, Nat.add_comm 1 n]
    | some fb =>
      simp only [ih, delay, World.emit, esp_camera_fb_return]
      simp [Nat.add_assoc, Nat.add_comm 1 n]

theorem send_chunks_eq (fb : camera_fb_t) (ts pc tc : Nat) (htc : tc < 2 ^ 16)
    (n : Nat) (i fuel : Nat) (hin : i + n = tc) (hfuel : n ≤ fuel)
    (hb : ∀ j, i ≤ j → j < tc →
      this_len_of ts pc j ≤ (fb.buf.drop (chunk_offset pc j)).length)
    (w : World) :
    send_chunks fb ts pc tc fuel i w =
      some { trace := w.trace ++ chunks_events fb ts pc n i, fb_gets := w.fb_gets } := by
  induction n generalizing i fuel w with
  | zero =>
    have hi : ¬ i < tc := by omega
    cases fuel <;> simp [send_chunks, hi, chunks_events]
  | succ n ih =>
    have hi : i < tc := by omega
    cases fuel with
    | zero => omega
    | succ f =>
      have hu : u16 (i + 1) = i + 1 := by
        unfold u16
        exact Nat.mod_eq_of_lt (by omega)
      simp only [send_chunks, hi, if_true, Option.bind_eq_bind]
      rw [send_chunk_packet_eq i _ _ w (hb i (Nat.le_refl _) hi)]
      simp only [Option.some_bind, hu]
      rw [ih (i + 1) f (by omega) (by omega) (fun j hj hjt => hb j (by omega) hjt)]
      simp [delay, World.emit, chunks_events, chunk_payload]


/-- The run of `capture_and_send_frame` when the driver yields no frame. -/
theorem capture_and_send_frame_none (cam : Nat → Option camera_fb_t) (fuel : Nat) (w : World)
    (hcam : cam (w.fb_gets + 3) = none) :
    capture_and_send_frame cam fuel w =
      some { trace := w.trace ++ acquire_events cam w.fb_gets, fb_gets := w.fb_gets + 4 } := by
  simp [capture_and_send_frame, esp_camera_sensor_get, set_framesize, discard_frames_eq,
    esp_camera_fb_get, World.emit, hcam, acquire_events]

/-- The run of `capture_and_send_frame` when the driver yields the frame `fb`, whose buffer
holds the `len` bytes it announces. -/
theorem capture_and_send_frame_some (cam : Nat → Option camera_fb_t) (fuel : Nat) (w : World)
    (fb : camera_fb_t) (hcam : cam (w.fb_gets + 3) = some fb)
    (hbuf : u32 fb.len ≤ fb.buf.length)
    (hfuel : total_chunks_of (u32 fb.len) 512 ≤ fuel) :
    capture_and_send_frame cam fuel w =
      some { trace := w.trace ++ acquire_events cam w.fb_gets ++ transfer_events fb
                        ++ [Event.fb_return fb],
             fb_gets := w.fb_gets + 4 } := by
  have hts : u32 fb.len < 2 ^ 32 := Nat.mod_lt _ (by norm_num)
  simp only [capture_and_send_frame, esp_camera_sensor_get, set_framesize, discard_frames_eq,
    esp_camera_fb_get, World.emit, hcam, u16_chunk_size, send_frame_header_eq,
    Option.bind_eq_bind, Option.some_bind]
  rw [send_chunks_eq fb (u32 fb.len) 512 _ (total_chunks_of_lt _ _)
    (total_chunks_of (u32 fb.len) 512) 0 fuel (by omega) hfuel
    (fun j _ hj => chunk_payload_length fb (u32 fb.len) j hts hbuf hj)]
  simp [esp_camera_fb_return, World.emit, acquire_events, transfer_events]


theorem serial_of_acquire_events (cam : Nat → Option camera_fb_t) (k : Nat) :
    serial_of (acquire_events cam k) = [] := by
  unfold acquire_events
  rw [serial_of_append, serial_of_append, serial_of_discard_events]
  rfl

/-- The bytes one successful run writes are those of the header and the chunks. -/
theorem capture_and_send_frame_serial (cam : Nat → Option camera_fb_t) (fuel : Nat) (w : World)
    (fb : camera_fb_t) (hcam : cam (w.fb_gets + 3) = some fb)
    (hbuf : u32 fb.len ≤ fb.buf.length)
    (hfuel : total_chunks_of (u32 fb.len) 512 ≤ fuel) :
    ∃ w', capture_and_send_frame cam fuel w = some w' ∧
      serial_of w'.trace = serial_of w.trace ++ serial_of (transfer_events fb) := by
  refine ⟨_, capture_and_send_frame_some cam fuel w fb hcam hbuf hfuel, ?_⟩
  show serial_of (w.trace ++ acquire_events cam w.fb_gets ++ transfer_events fb
    ++ [Event.fb_return fb]) = _
  have hr : serial_of [Event.fb_return fb] = [] := rfl
  rw [serial_of_append, serial_of_append, serial_of_append, serial_of_acquire_events, hr,
    List.append_nil, List.append_nil]

/-! ## What a receiver reads -/

theorem crc32_fold_step_lt (B : List Nat) (s : Nat) (hs : s < 2 ^ 32) :
    B.foldl (fun crc b => (crc >>> 8) ^^^ crc_table.getD ((crc ^^^ b) &&& 0xFF) 0) s
      < 2 ^ 32 := by
  induction B generalizing s with
  | nil => exact hs
  | cons b bs ih =>
    apply ih
    have h1 : s >>> 8 < 2 ^ 32 := by
      rw [Nat.shiftRight_eq_div_pow]
      exact lt_of_le_of_lt (Nat.div_le_self _ _) hs
    have h2 : (s ^^^ b) &&& 0xFF < 256 := by
      rw [and_255]; exact Nat.mod_lt _ (by norm_num)
    show s >>> 8 ^^^ crc_table.getD ((s ^^^ b) &&& 0xFF) 0 < 2 ^ 32
    rw [crc_table_getD _ h2]
    exact Nat.xor_lt_two_pow h1 (crc_table_entry_lt _ (byte_lt_u32 _ h2))

theorem crc32_of_lt (B : List Nat) : crc32_of B < 2 ^ 32 :=
  Nat.xor_lt_two_pow (crc32_fold_step_lt B _ (by norm_num)) (by norm_num)

theorem header_packet_length (ts cs tc : Nat) : (header_packet ts cs tc).length = 13 := by
  simp [header_packet, le16, le32]

theorem chunk_packet_length (i : Nat) (p : List Nat) :
    (chunk_packet i p).length = 13 + p.length := by
  simp [chunk_packet, le16, le32]
  omega

theorem parse_header_packet (ts cs tc : Nat) (hts : ts < 2 ^ 32) (hcs : cs < 2 ^ 16)
    (htc : tc < 2 ^ 16) (rest : List Nat) :
    parse_header (header_packet ts cs tc ++ rest) =
      some ({ total_size := ts, chunk_size := cs, total_chunks := tc }, rest) := by
  have h1 := decode_le32 ts hts
  have h2 := decode_le16 cs hcs
  have h3 := decode_le16 tc htc
  simp only [le16, le32] at h1 h2 h3
  simp [parse_header, header_packet, le16, le32, h1, h2, h3]

theorem parse_chunk_packet (i : Nat) (p : List Nat) (hi : i < 2 ^ 16) (hp : p.length < 2 ^ 16)
    (rest : List Nat) :
    parse_chunk (chunk_packet i p ++ rest) = some (chunk_of i p, rest) := by
  have h1 := decode_le32 (crc32_of p) (crc32_of_lt p)
  have h2 := decode_le16 i hi
  have h3 := decode_le16 p.length hp
  simp only [le16, le32] at h1 h2 h3
  simp [parse_chunk, chunk_packet, le16, le32, h1, h2, h3, chunk_of]
  refine ⟨by omega, ?_⟩
  rw [Nat.add_comm 13 p.length]
  simp [List.drop_left']

theorem parse_chunks_packets (pay : Nat → List Nat) (ks : List Nat) (fuel : Nat)
    (hfuel : ks.length ≤ fuel)
    (hk : ∀ k ∈ ks, k < 2 ^ 16 ∧ (pay k).length < 2 ^ 16) :
    parse_chunks fuel (ks.flatMap (fun k => chunk_packet k (pay k))) =
      some (ks.map (fun k => chunk_of k (pay k))) := by
  induction ks generalizing fuel with
  | nil => cases fuel <;> simp [parse_chunks]
  | cons k ks ih =>
    cases fuel with
    | zero => simp at hfuel
    | succ f =>
      obtain ⟨hk1, hk2⟩ := hk k (List.mem_cons_self _ _)
      have hne : ∃ b bs, chunk_packet k (pay k) ++ ks.flatMap (fun k => chunk_packet k (pay k))
          = b :: bs := by
        simp [chunk_packet]
      obtain ⟨b, bs, hbs⟩ := hne
      rw [List.flatMap_cons, hbs]
      simp only [parse_chunks]
      rw [← hbs, parse_chunk_packet k (pay k) hk1 hk2]
      simp only []
      rw [ih f (by simpa using hfuel) (fun j hj => hk j (List.mem_cons_of_mem _ hj))]
      simp

theorem flatMap_packets_length (pay : Nat → List Nat) (ks : List Nat) :
    ks.length ≤ (ks.flatMap (fun k => chunk_packet k (pay k))).length := by
  induction ks with
  | nil => simp
  | cons k ks ih =>
    simp only [List.flatMap_cons, List.length_append, List.length_cons, chunk_packet_length]
    omega

theorem serial_of_chunks_events (fb : camera_fb_t) (ts pc n i : Nat) :
    serial_of (chunks_events fb ts pc n i) =
      (List.range' i n).flatMap (fun k => chunk_packet k (chunk_payload fb ts pc k)) := by
  induction n generalizing i with
  | zero => rfl
  | succ n ih =>
    simp only [chunks_events, serial_of_append, serial_of_chunk_events, ih, List.range'_succ,
      List.flatMap_cons]
    simp [serial_of]

theorem serial_of_transfer_events (fb : camera_fb_t) :
    serial_of (transfer_events fb) =
      header_packet (u32 fb.len) 512 (total_chunks_of (u32 fb.len) 512) ++
        (List.range (total_chunks_of (u32 fb.len) 512)).flatMap
          (fun k => chunk_packet k (chunk_payload fb (u32 fb.len) 512 k)) := by
  simp [transfer_events, serial_of_append, serial_of_header_events, serial_of_chunks_events,
    List.range_eq_range']

theorem chunk_payload_length_eq (fb : camera_fb_t) (ts i : Nat) (hts : ts < 2 ^ 32)
    (hbuf : ts ≤ fb.buf.length) (hi : i < total_chunks_of ts 512) :
    (chunk_payload fb ts 512 i).length = this_len_of ts 512 i := by
  have := chunk_payload_length fb ts i hts hbuf hi
  simp only [chunk_payload, List.length_take]
  omega

theorem this_len_of_le (ts i : Nat) : this_len_of ts 512 i ≤ 512 := by
  unfold this_len_of u16 u32
  have : min (512 % 2 ^ 32) (u32_sub ts (chunk_offset 512 i)) ≤ 512 :=
    le_trans (Nat.min_le_left _ _) (by norm_num)
  exact le_trans (Nat.mod_le _ _) this

/-- What a receiver reads from the bytes of one transfer. -/
theorem receive_transfer (fb : camera_fb_t) (hbuf : u32 fb.len ≤ fb.buf.length) :
    receive (serial_of (transfer_events fb)) =
      some ({ total_size := u32 fb.len, chunk_size := 512,
              total_chunks := total_chunks_of (u32 fb.len) 512 },
            (List.range (total_chunks_of (u32 fb.len) 512)).map
              (fun k => chunk_of k (chunk_payload fb (u32 fb.len) 512 k))) := by
  have hts : u32 fb.len < 2 ^ 32 := Nat.mod_lt _ (by norm_num)
  have htc := total_chunks_of_lt (u32 fb.len) 512
  rw [serial_of_transfer_events, receive,
    parse_header_packet _ _ _ hts (by norm_num) htc]
  simp only []
  rw [parse_chunks_packets _ _ _ (flatMap_packets_length _ _)]
  · simp
  · intro k hk
    have hk2 : k < total_chunks_of (u32 fb.len) 512 := List.mem_range.mp hk
    refine ⟨lt_trans hk2 htc, ?_⟩
    rw [chunk_payload_length_eq fb _ k hts hbuf hk2]
    exact lt_of_le_of_lt (this_len_of_le _ _) (by norm_num)


/-! ## The payloads of a transfer -/

theorem chunk_payload_eq (fb : camera_fb_t) (ts i : Nat) (hts : ts < 2 ^ 32)
    (hi : i < total_chunks_of ts 512) :
    chunk_payload fb ts 512 i = (fb.buf.drop (i * 512)).take (min 512 (ts - i * 512)) := by
  have h1 := chunk_in_frame ts i hts hi
  have h2 := total_chunks_of_lt ts 512
  rw [chunk_payload, this_len_of_eq ts i hts h1, chunk_offset_eq i (by omega)]

/-- The first `m` payloads, one after the other, are the first `m * 512` bytes of the
frame. -/
theorem payloads_concat (fb : camera_fb_t) (ts : Nat) (hts : ts < 2 ^ 32) (m : Nat)
    (hm : m ≤ total_chunks_of ts 512) :
    (List.range m).flatMap (fun k => chunk_payload fb ts 512 k)
      = fb.buf.take (min (m * 512) ts) := by
  induction m with
  | zero => simp
  | succ m ih =>
    have hlt : m < total_chunks_of ts 512 := by omega
    have h1 := chunk_in_frame ts m hts hlt
    rw [List.range_succ, List.flatMap_append, ih (by omega)]
    simp only [List.flatMap_cons, List.flatMap_nil, List.append_nil]
    rw [chunk_payload_eq fb ts m hts hlt]
    have e1 : min (m * 512) ts = m * 512 := by omega
    have e2 : min ((m + 1) * 512) ts = m * 512 + min 512 (ts - m * 512) := by omega
    rw [e1, e2, List.take_add]

theorem payloads_of_chunks (pay : Nat → List Nat) (ks : List Nat) :
    ((ks.map (fun k => chunk_of k (pay k))).map Chunk.payload).flatten = ks.flatMap pay := by
  induction ks with
  | nil => rfl
  | cons k ks ih =>
    simp only [List.map_cons, List.flatten_cons, List.flatMap_cons, ih]
    rfl

theorem payload_lens_of_chunks (pay : Nat → List Nat) (ks : List Nat) :
    ((ks.map (fun k => chunk_of k (pay k))).map Chunk.payload_len).sum
      = (ks.flatMap pay).length := by
  induction ks with
  | nil => rfl
  | cons k ks ih =>
    simp only [List.map_cons, List.sum_cons, List.flatMap_cons, List.length_append, ih]
    rfl

theorem indices_of_chunks (pay : Nat → List Nat) (ks : List Nat) :
    (ks.map (fun k => chunk_of k (pay k))).map Chunk.chunk_index = ks := by
  induction ks with
  | nil => rfl
  | cons k ks ih =>
    simp only [List.map_cons, ih]
    rfl

theorem ceil_div_512 (L : Nat) : ceil_div L 512 = (L + 511) / 512 := rfl

/-- The value `ceil_div L C` is the least `n` with `L ≤ n * C`. -/
theorem ceil_div_le_iff (L C n : Nat) (hC : 0 < C) : ceil_div L C ≤ n ↔ L ≤ n * C := by
  unfold ceil_div
  rw [← Nat.lt_succ_iff, Nat.div_lt_iff_lt_mul hC, Nat.succ_mul]
  omega

/-- The value `ceil_div L C` is the ceiling of the quotient `L / C` of rational numbers. -/
theorem ceil_div_eq_ceil (L C : Nat) (hC : 0 < C) :
    ceil_div L C = ⌈(L : ℚ) / (C : ℚ)⌉₊ := by
  apply eq_of_forall_ge_iff
  intro n
  have hCq : (0 : ℚ) < (C : ℚ) := by exact_mod_cast hC
  rw [ceil_div_le_iff L C n hC, Nat.ceil_le, div_le_iff₀ hCq]
  exact_mod_cast Iff.rfl

theorem total_chunks_of_covers (ts : Nat) (hts : ts ≤ 65535 * 512) :
    ts ≤ total_chunks_of ts 512 * 512 := by
  rw [total_chunks_of_small ts (by omega)]
  omega


/-! # The claims -/

/-- C1: when the driver yields a frame `fb` whose buffer holds the `len` bytes it announces,
with `len <= 65535 * 512`, the run returns, and a receiver reading the bytes it wrote gets
one header and chunk packets whose payloads, concatenated in the order of emission, are
exactly the bytes of the frame, and whose `payload_len` fields sum to the header's
`total_size`, which is `len`. -/
theorem transfer_round_trip (cam : Nat → Option camera_fb_t) (fuel : Nat) (w : World)
    (fb : camera_fb_t) (hcam : cam (w.fb_gets + 3) = some fb)
    (hbuf : fb.buf.length = fb.len) (hL : fb.len ≤ 65535 * 512)
    (hfuel : ceil_div fb.len CHUNK_SIZE ≤ fuel) :
    ∃ w' out h cs, capture_and_send_frame cam fuel w = some w' ∧
      serial_of w'.trace = serial_of w.trace ++ out ∧
      receive out = some (h, cs) ∧
      (cs.map Chunk.payload).flatten = fb.buf ∧
      (cs.map Chunk.payload_len).sum = h.total_size ∧
      h.total_size = fb.len := by
  have hL32 : fb.len < 2 ^ 32 := by
    have : (65535 * 512 : Nat) < 2 ^ 32 := by norm_num
    omega
  have hu : u32 fb.len = fb.len := Nat.mod_eq_of_lt hL32
  have hn : total_chunks_of fb.len 512 = ceil_div fb.len CHUNK_SIZE :=
    total_chunks_of_small fb.len (by omega)
  have hub : u32 fb.len ≤ fb.buf.length := by omega
  obtain ⟨w', hrun, hser⟩ := capture_and_send_frame_serial cam fuel w fb hcam hub
    (by rw [hu, hn]; exact hfuel)
  have hcov := total_chunks_of_covers fb.len hL
  have hcat := payloads_concat fb fb.len hL32 (total_chunks_of fb.len 512) (Nat.le_refl _)
  have hmin : min (total_chunks_of fb.len 512 * 512) fb.len = fb.len := by omega
  have htake : fb.buf.take fb.len = fb.buf := by rw [← hbuf, List.take_length]
  rw [hmin, htake] at hcat
  refine ⟨w', _, _, _, hrun, hser, receive_transfer fb hub, ?_, ?_, hu⟩
  · rw [payloads_of_chunks, hu]
    exact hcat
  · rw [payload_lens_of_chunks, hu, hcat]
    exact hbuf

/-- Witness of C1: the 1000-byte sample frame. -/
theorem transfer_round_trip_witness :
    (sample_cam (World.init.fb_gets + 3) = some sample_frame ∧
      sample_frame.buf.length = sample_frame.len ∧ sample_frame.len ≤ 65535 * 512 ∧
      ceil_div sample_frame.len CHUNK_SIZE ≤ 2) ∧
    ∃ w' out h cs, capture_and_send_frame sample_cam 2 World.init = some w' ∧
      serial_of w'.trace = serial_of World.init.trace ++ out ∧
      receive out = some (h, cs) ∧
      (cs.map Chunk.payload).flatten = sample_frame.buf ∧
      (cs.map Chunk.payload_len).sum = h.total_size ∧
      h.total_size = sample_frame.len :=
  ⟨⟨rfl, by simp [sample_frame], by decide, by decide⟩,
   transfer_round_trip sample_cam 2 World.init sample_frame rfl (by simp [sample_frame])
     (by decide) (by decide)⟩

/-- C2, as stated, fails: a frame of 65536 * 512 = 33,554,432 bytes needs 65536 chunks, and
the 16-bit `total_chunks` that the code computes for it is 0; the run for such a frame writes
a header that announces 0 chunks, and nothing else. -/
theorem total_chunks_wraps :
    33554432 < 2 ^ 32 ∧
    total_chunks_of (u32 33554432) (u16 CHUNK_SIZE) = 0 ∧
    ceil_div 33554432 CHUNK_SIZE = 65536 ∧
    ∃ w', capture_and_send_frame (fun _ => some big_frame) 0 World.init = some w' ∧
      serial_of w'.trace = header_packet 33554432 512 0 := by
  have hlen : big_frame.len = 33554432 := rfl
  have hu : u32 big_frame.len = 33554432 := by rw [hlen]; decide
  have hn : total_chunks_of 33554432 512 = 0 := by decide
  have hbuf : u32 big_frame.len ≤ big_frame.buf.length := by
    rw [hu]
    simp only [big_frame, List.length_replicate]
    exact Nat.le_refl _
  obtain ⟨w', hrun, hser⟩ := capture_and_send_frame_serial (fun _ => some big_frame) 0
    World.init big_frame rfl hbuf (by rw [hu, hn])
  refine ⟨by norm_num, by decide, by decide, w', hrun, ?_⟩
  rw [hser, serial_of_transfer_events, hu, hn]
  rfl

/-- C2, amended: for a frame length `L` (a 32-bit `total_size`) and the configured chunk size
512, the 16-bit `total_chunks` that `capture_and_send_frame` computes equals `ceil(L / 512)`
exactly when `L <= 65535 * 512 = 33,553,920`; `L = 1000` gives 2, `L = 512` gives 1 and
`L = 0` gives 0. -/
theorem total_chunks_eq_ceil_iff (L : Nat) (hL : L < 2 ^ 32) :
    (total_chunks_of (u32 L) (u16 CHUNK_SIZE) = ceil_div L CHUNK_SIZE ↔ L ≤ 65535 * 512) ∧
    total_chunks_of (u32 1000) (u16 CHUNK_SIZE) = 2 ∧
    total_chunks_of (u32 512) (u16 CHUNK_SIZE) = 1 ∧
    total_chunks_of (u32 0) (u16 CHUNK_SIZE) = 0 := by
  refine ⟨?_, by decide, by decide, by decide⟩
  have hu : u32 L = L := Nat.mod_eq_of_lt hL
  rw [u16_chunk_size, hu]
  show total_chunks_of L 512 = ceil_div L 512 ↔ _
  rw [ceil_div_512]
  constructor
  · intro h
    by_contra hc
    have := total_chunks_of_large L hL (by omega)
    omega
  · intro h
    exact total_chunks_of_small L (by omega)

/-- Witness of C2, amended: `L = 1000`. -/
theorem total_chunks_eq_ceil_iff_witness :
    1000 < 2 ^ 32 ∧
    ((total_chunks_of (u32 1000) (u16 CHUNK_SIZE) = ceil_div 1000 CHUNK_SIZE
        ↔ 1000 ≤ 65535 * 512) ∧
     total_chunks_of (u32 1000) (u16 CHUNK_SIZE) = 2 ∧
     total_chunks_of (u32 512) (u16 CHUNK_SIZE) = 1 ∧
     total_chunks_of (u32 0) (u16 CHUNK_SIZE) = 0) :=
  ⟨by norm_num, total_chunks_eq_ceil_iff 1000 (by norm_num)⟩

/-- C3: when the driver yields a frame `fb` whose buffer holds the `len` bytes it announces
(`len` a 32-bit value), the run returns, and every chunk packet a receiver reads from the
bytes it wrote has `1 <= payload_len <= 512` and carries `payload_len` payload bytes; every
chunk whose index is not `total_chunks - 1` (the header's `total_chunks`) has
`payload_len = 512`. For `len = 1000` the chunks are chunk 0 with `payload_len` 512 and chunk
1 with `payload_len` 488. -/
theorem chunk_lengths (cam : Nat → Option camera_fb_t) (fuel : Nat) (w : World)
    (fb : camera_fb_t) (hcam : cam (w.fb_gets + 3) = some fb)
    (hbuf : fb.buf.length = fb.len) (hL : fb.len < 2 ^ 32)
    (hfuel : total_chunks_of (u32 fb.len) (u16 CHUNK_SIZE) ≤ fuel) :
    ∃ w' out h cs, capture_and_send_frame cam fuel w = some w' ∧
      serial_of w'.trace = serial_of w.trace ++ out ∧
      receive out = some (h, cs) ∧
      (∀ c ∈ cs, 1 ≤ c.payload_len ∧ c.payload_len ≤ CHUNK_SIZE ∧
        c.payload.length = c.payload_len ∧
        (c.chunk_index ≠ h.total_chunks - 1 → c.payload_len = CHUNK_SIZE)) ∧
      (fb.len = 1000 →
        cs.map (fun c => (c.chunk_index, c.payload_len)) = [(0, 512), (1, 488)]) := by
  have hu : u32 fb.len = fb.len := Nat.mod_eq_of_lt hL
  have hub : u32 fb.len ≤ fb.buf.length := by omega
  rw [u16_chunk_size] at hfuel
  obtain ⟨w', hrun, hser⟩ := capture_and_send_frame_serial cam fuel w fb hcam hub hfuel
  refine ⟨w', _, _, _, hrun, hser, receive_transfer fb hub, ?_, ?_⟩
  · intro c hc
    rw [hu] at hc
    obtain ⟨k, hk, rfl⟩ := List.mem_map.mp hc
    have hk2 : k < total_chunks_of fb.len 512 := List.mem_range.mp hk
    have h1 := chunk_in_frame fb.len k hL hk2
    have h2 := this_len_of_eq fb.len k hL h1
    have h3 := chunk_payload_length_eq fb fb.len k hL (by omega) hk2
    simp only [chunk_of, CHUNK_SIZE, hu]
    rw [h3, h2]
    refine ⟨by omega, by omega, trivial, ?_⟩
    intro hne
    have := chunk_not_last fb.len k hL (by omega)
    omega
  · intro h1000
    have hn : total_chunks_of (u32 fb.len) 512 = 2 := by rw [h1000]; decide
    rw [hn]
    have hk0 : (0 : Nat) < total_chunks_of fb.len 512 := by rw [← hu, hn]; norm_num
    have hk1 : (1 : Nat) < total_chunks_of fb.len 512 := by rw [← hu, hn]; norm_num
    have a0 := chunk_payload_length_eq fb fb.len 0 hL (by omega) hk0
    have a1 := chunk_payload_length_eq fb fb.len 1 hL (by omega) hk1
    have b0 : this_len_of fb.len 512 0 = 512 := by rw [h1000]; decide
    have b1 : this_len_of fb.len 512 1 = 488 := by rw [h1000]; decide
    simp [List.range_succ, chunk_of, hu, a0, a1, b0, b1]

/-- Witness of C3: the 1000-byte sample frame. -/
theorem chunk_lengths_witness :
    (sample_cam (World.init.fb_gets + 3) = some sample_frame ∧
      sample_frame.buf.length = sample_frame.len ∧ sample_frame.len < 2 ^ 32 ∧
      total_chunks_of (u32 sample_frame.len) (u16 CHUNK_SIZE) ≤ 2) ∧
    ∃ w' out h cs, capture_and_send_frame sample_cam 2 World.init = some w' ∧
      serial_of w'.trace = serial_of World.init.trace ++ out ∧
      receive out = some (h, cs) ∧
      (∀ c ∈ cs, 1 ≤ c.payload_len ∧ c.payload_len ≤ CHUNK_SIZE ∧
        c.payload.length = c.payload_len ∧
        (c.chunk_index ≠ h.total_chunks - 1 → c.payload_len = CHUNK_SIZE)) ∧
      (sample_frame.len = 1000 →
        cs.map (fun c => (c.chunk_index, c.payload_len)) = [(0, 512), (1, 488)]) :=
  ⟨⟨rfl, by simp [sample_frame], by decide, by decide⟩,
   chunk_lengths sample_cam 2 World.init sample_frame rfl (by simp [sample_frame])
     (by decide) (by decide)⟩

/-- C4: for every `chunk_idx` and `payload_len` (16-bit) and every payload buffer holding at
least `payload_len` bytes, `compute_crc32` of the first `payload_len` payload bytes is some
32-bit `crc` that is the same whether computed from the whole buffer or from those bytes
alone, and from every state of the world `send_chunk_packet` returns and appends to the
serial sink exactly `13 + payload_len` bytes, in this order: the magic A5 A5 A5 A5, the chunk
tag 02, `chunk_idx` as 2 bytes and `payload_len` as 2 bytes, least significant first, `crc`
as 4 bytes least significant first, then the `payload_len` payload bytes unchanged. -/
theorem send_chunk_packet_layout (chunk_idx : Nat) (payload : List Nat) (payload_len : Nat)
    (hidx : chunk_idx < 2 ^ 16) (hlen : payload_len < 2 ^ 16)
    (hbuf : payload_len ≤ payload.length) :
    ∃ crc, crc < 2 ^ 32 ∧
      compute_crc32 payload payload_len = some crc ∧
      compute_crc32 (payload.take payload_len) payload_len = some crc ∧
      ∀ w : World, ∃ w', send_chunk_packet chunk_idx payload payload_len w = some w' ∧
        serial_of w'.trace = serial_of w.trace ++
          ([0xA5, 0xA5, 0xA5, 0xA5, 0x02,
            chunk_idx % 256, chunk_idx / 256,
            payload_len % 256, payload_len / 256,
            crc % 256, crc / 256 % 256, crc / 65536 % 256, crc / 16777216]
            ++ payload.take payload_len) ∧
        (serial_of w'.trace).length = (serial_of w.trace).length + (13 + payload_len) := by
  have hl : (payload.take payload_len).length = payload_len := by
    rw [List.length_take]; omega
  have hc := crc32_of_lt (payload.take payload_len)
  refine ⟨crc32_of (payload.take payload_len), hc, compute_crc32_eq payload payload_len hbuf, ?_, ?_⟩
  · have := compute_crc32_eq (payload.take payload_len) payload_len (by omega)
    rw [this, List.take_take, Nat.min_self]
  · intro w
    have e1 : crc32_of (payload.take payload_len) / 16777216 % 256
        = crc32_of (payload.take payload_len) / 16777216 := by omega
    have e2 : chunk_idx / 256 % 256 = chunk_idx / 256 := by omega
    have e3 : payload_len / 256 % 256 = payload_len / 256 := by omega
    refine ⟨_, send_chunk_packet_eq chunk_idx payload payload_len w hbuf, ?_, ?_⟩
    · simp only [serial_of_append, serial_of_chunk_events, chunk_packet, le16, le32, hl, e1, e2,
        e3]
      simp
    · simp only [serial_of_append, serial_of_chunk_events, List.length_append,
        chunk_packet_length, hl]

/-- Witness of C4: chunk 1 with the 9 bytes "123456789", the first 9 bytes of a 10-byte
buffer. -/
theorem send_chunk_packet_layout_witness :
    (1 < 2 ^ 16 ∧ 9 < 2 ^ 16 ∧ 9 ≤ (check_input ++ [0xFF]).length) ∧
    ∃ crc, crc < 2 ^ 32 ∧
      compute_crc32 (check_input ++ [0xFF]) 9 = some crc ∧
      compute_crc32 ((check_input ++ [0xFF]).take 9) 9 = some crc ∧
      ∀ w : World, ∃ w', send_chunk_packet 1 (check_input ++ [0xFF]) 9 w = some w' ∧
        serial_of w'.trace = serial_of w.trace ++
          ([0xA5, 0xA5, 0xA5, 0xA5, 0x02, 1 % 256, 1 / 256, 9 % 256, 9 / 256,
            crc % 256, crc / 256 % 256, crc / 65536 % 256, crc / 16777216]
            ++ (check_input ++ [0xFF]).take 9) ∧
        (serial_of w'.trace).length = (serial_of w.trace).length + (13 + 9) :=
  ⟨⟨by norm_num, by norm_num, by decide⟩,
   send_chunk_packet_layout 1 (check_input ++ [0xFF]) 9 (by norm_num) (by norm_num)
     (by decide)⟩

/-- C5: for every `total_size` (32-bit), `chunk_size` and `total_chunks` (16-bit),
`send_frame_header` returns and appends to the serial sink exactly 13 bytes, in this order:
the magic A5 A5 A5 A5, the header tag 01, `total_size` as 4 bytes least significant first,
`chunk_size` as 2 bytes and `total_chunks` as 2 bytes, both least significant first; each of
them is a byte, and decoding the three little-endian fields gives back the arguments. -/
theorem send_frame_header_layout (total_size chunk_size total_chunks : Nat) (w : World)
    (hts : total_size < 2 ^ 32) (hcs : chunk_size < 2 ^ 16) (htc : total_chunks < 2 ^ 16) :
    ∃ w', send_frame_header total_size chunk_size total_chunks w = some w' ∧
      serial_of w'.trace = serial_of w.trace ++
        [0xA5, 0xA5, 0xA5, 0xA5, 0x01,
         total_size % 256, total_size / 256 % 256, total_size / 65536 % 256,
         total_size / 16777216,
         chunk_size % 256, chunk_size / 256,
         total_chunks % 256, total_chunks / 256] ∧
      is_bytes [0xA5, 0xA5, 0xA5, 0xA5, 0x01,
         total_size % 256, total_size / 256 % 256, total_size / 65536 % 256,
         total_size / 16777216,
         chunk_size % 256, chunk_size / 256,
         total_chunks % 256, total_chunks / 256] ∧
      decode_le [total_size % 256, total_size / 256 % 256, total_size / 65536 % 256,
         total_size / 16777216] = total_size ∧
      decode_le [chunk_size % 256, chunk_size / 256] = chunk_size ∧
      decode_le [total_chunks % 256, total_chunks / 256] = total_chunks := by
  have e1 : total_size / 16777216 % 256 = total_size / 16777216 := by omega
  have e2 : chunk_size / 256 % 256 = chunk_size / 256 := by omega
  have e3 : total_chunks / 256 % 256 = total_chunks / 256 := by omega
  refine ⟨_, send_frame_header_eq total_size chunk_size total_chunks w, ?_, ?_, ?_, ?_, ?_⟩
  · simp [serial_of_append, serial_of_header_events, header_packet, le16, le32, e1, e2, e3]
  · intro b hb
    simp only [List.mem_cons, List.mem_singleton, List.not_mem_nil, or_false] at hb
    omega
  · simp only [decode_le]; omega
  · simp only [decode_le]; omega
  · simp only [decode_le]; omega

/-- Witness of C5: the header of a 1000-byte frame sent in 2 chunks of at most 512 bytes. -/
theorem send_frame_header_layout_witness :
    (1000 < 2 ^ 32 ∧ 512 < 2 ^ 16 ∧ 2 < 2 ^ 16) ∧
    ∃ w', send_frame_header 1000 512 2 { trace := [], fb_gets := 0 } = some w' ∧
      serial_of w'.trace = serial_of [] ++
        [0xA5, 0xA5, 0xA5, 0xA5, 0x01, 1000 % 256, 1000 / 256 % 256, 1000 / 65536 % 256,
         1000 / 16777216, 512 % 256, 512 / 256, 2 % 256, 2 / 256] ∧
      is_bytes [0xA5, 0xA5, 0xA5, 0xA5, 0x01, 1000 % 256, 1000 / 256 % 256,
         1000 / 65536 % 256, 1000 / 16777216, 512 % 256, 512 / 256, 2 % 256, 2 / 256] ∧
      decode_le [1000 % 256, 1000 / 256 % 256, 1000 / 65536 % 256, 1000 / 16777216] = 1000 ∧
      decode_le [512 % 256, 512 / 256] = 512 ∧
      decode_le [2 % 256, 2 / 256] = 2 :=
  ⟨⟨by norm_num, by norm_num, by norm_num⟩,
   send_frame_header_layout 1000 512 2 { trace := [], fb_gets := 0 }
     (by norm_num) (by norm_num) (by norm_num)⟩

/-- C6: with `crc_table` the table of the standard construction, `compute_crc32` of a whole
buffer `B` of bytes returns the bit-at-a-time reference CRC-32 of `B` (initial register
`0xFFFFFFFF`, polynomial `0xEDB88320`, final XOR `0xFFFFFFFF`); `compute_crc32` of the 9
ASCII bytes "123456789" is `0xCBF43926`, and of the empty buffer `0x00000000`. -/
theorem compute_crc32_standard (B : List Nat) (hB : is_bytes B) :
    compute_crc32 B B.length = some (crc32_reference B) ∧
    compute_crc32 check_input 9 = some 0xCBF43926 ∧
    compute_crc32 [] 0 = some 0x00000000 :=
  ⟨compute_crc32_eq_ref B hB, by decide, by decide⟩

/-- Witness of C6: the buffer "123456789". -/
theorem compute_crc32_standard_witness :
    is_bytes check_input ∧
    (compute_crc32 check_input check_input.length = some (crc32_reference check_input) ∧
     compute_crc32 check_input 9 = some 0xCBF43926 ∧
     compute_crc32 [] 0 = some 0x00000000) :=
  ⟨by decide, compute_crc32_standard check_input (by decide)⟩

/-- C7: when the driver yields a frame `fb` whose buffer holds the `len` bytes it announces
(`len` a 32-bit value), the run returns and the bytes it wrote are exactly one header packet,
carrying `total_size = len`, `chunk_size = 512` and the computed `total_chunks = n`, followed
by the chunk packets of index 0, 1, ..., n - 1 in this order and nothing else: a receiver
reads the header and exactly `n` chunks whose `chunk_index` fields are 0, 1, ..., n - 1. For
`len = 0` the output is the 13 bytes of a header with `total_chunks = 0` and no chunk. -/
theorem packet_sequence (cam : Nat → Option camera_fb_t) (fuel : Nat) (w : World)
    (fb : camera_fb_t) (hcam : cam (w.fb_gets + 3) = some fb)
    (hbuf : fb.buf.length = fb.len) (hL : fb.len < 2 ^ 32)
    (hfuel : total_chunks_of (u32 fb.len) (u16 CHUNK_SIZE) ≤ fuel) :
    ∃ w' out cs, capture_and_send_frame cam fuel w = some w' ∧
      serial_of w'.trace = serial_of w.trace ++ out ∧
      out = header_packet fb.len CHUNK_SIZE (total_chunks_of (u32 fb.len) (u16 CHUNK_SIZE)) ++
        (List.range (total_chunks_of (u32 fb.len) (u16 CHUNK_SIZE))).flatMap
          (fun k => chunk_packet k (chunk_payload fb fb.len CHUNK_SIZE k)) ∧
      receive out = some ({ total_size := fb.len,
                            chunk_size := CHUNK_SIZE,
                            total_chunks := total_chunks_of (u32 fb.len) (u16 CHUNK_SIZE) },
                          cs) ∧
      cs.length = total_chunks_of (u32 fb.len) (u16 CHUNK_SIZE) ∧
      cs.map Chunk.chunk_index = List.range (total_chunks_of (u32 fb.len) (u16 CHUNK_SIZE)) ∧
      (fb.len = 0 → cs = [] ∧
        out = [0xA5, 0xA5, 0xA5, 0xA5, 0x01, 0, 0, 0, 0, 0x00, 0x02, 0, 0]) := by
  have hu : u32 fb.len = fb.len := Nat.mod_eq_of_lt hL
  have hub : u32 fb.len ≤ fb.buf.length := by omega
  have hc : CHUNK_SIZE = 512 := rfl
  rw [u16_chunk_size] at hfuel
  obtain ⟨w', hrun, hser⟩ := capture_and_send_frame_serial cam fuel w fb hcam hub hfuel
  have hrecv := receive_transfer fb hub
  have hout := serial_of_transfer_events fb
  rw [u16_chunk_size, hc, hu]
  rw [hu] at hrecv hout
  refine ⟨w', _, _, hrun, hser, hout, hrecv, ?_, ?_, ?_⟩
  · rw [List.length_map, List.length_range]
  · exact indices_of_chunks _ _
  · intro h0
    have hn : total_chunks_of fb.len 512 = 0 := by rw [h0]; decide
    rw [hout, hn, h0]
    exact ⟨rfl, by simp [header_packet, le16, le32]⟩

/-- Witness of C7: the 1000-byte sample frame. -/
theorem packet_sequence_witness :
    (sample_cam (World.init.fb_gets + 3) = some sample_frame ∧
      sample_frame.buf.length = sample_frame.len ∧ sample_frame.len < 2 ^ 32 ∧
      total_chunks_of (u32 sample_frame.len) (u16 CHUNK_SIZE) ≤ 2) ∧
    ∃ w' out cs, capture_and_send_frame sample_cam 2 World.init = some w' ∧
      serial_of w'.trace = serial_of World.init.trace ++ out ∧
      out = header_packet sample_frame.len CHUNK_SIZE
          (total_chunks_of (u32 sample_frame.len) (u16 CHUNK_SIZE)) ++
        (List.range (total_chunks_of (u32 sample_frame.len) (u16 CHUNK_SIZE))).flatMap
          (fun k => chunk_packet k (chunk_payload sample_frame sample_frame.len CHUNK_SIZE k)) ∧
      receive out = some ({ total_size := sample_frame.len,
                            chunk_size := CHUNK_SIZE,
                            total_chunks :=
                              total_chunks_of (u32 sample_frame.len) (u16 CHUNK_SIZE) },
                          cs) ∧
      cs.length = total_chunks_of (u32 sample_frame.len) (u16 CHUNK_SIZE) ∧
      cs.map Chunk.chunk_index
        = List.range (total_chunks_of (u32 sample_frame.len) (u16 CHUNK_SIZE)) ∧
      (sample_frame.len = 0 → cs = [] ∧
        out = [0xA5, 0xA5, 0xA5, 0xA5, 0x01, 0, 0, 0, 0, 0x00, 0x02, 0, 0]) :=
  ⟨⟨rfl, by simp [sample_frame], by decide, by decide⟩,
   packet_sequence sample_cam 2 World.init sample_frame rfl (by simp [sample_frame])
     (by decide) (by decide)⟩

/-- C8, as stated, fails: in a run where the driver yields the 3-byte `small_frame` at every
call, `esp_camera_fb_get` is called 4 times and `esp_camera_fb_return` 4 times. -/
theorem four_acquisitions :
    ∃ w', capture_and_send_frame small_cam 1 World.init = some w' ∧
      count_fb_get w'.trace = 4 ∧
      returned_of w'.trace = [small_frame, small_frame, small_frame, small_frame] := by
  refine ⟨_, capture_and_send_frame_some small_cam 1 World.init small_frame rfl (by decide)
    (by decide), ?_, ?_⟩
  · simp only [count_fb_get_append, acquire_events, transfer_events, count_fb_get_discard_events,
      count_fb_get_header_events, count_fb_get_chunks_events]
    rfl
  · simp only [returned_of_append, transfer_events, returned_of_header_events,
      returned_of_chunks_events]
    rfl

/-- C8, amended: every run of `capture_and_send_frame` returns and calls
`esp_camera_fb_get` exactly four times. The first three calls are those of the warm-up loop:
each iteration is one `esp_camera_fb_get`, then, when a buffer was obtained, at once the
`esp_camera_fb_return` of that buffer, then `delay(30)`, and nothing else, so nothing is
written there and each buffer obtained is given back at once. When the fourth
call yields no buffer, nothing follows it: no release and no byte written. When it yields a
frame (whose buffer holds the bytes it announces), the header and the chunk packets are
written with no acquire or release in between, and `esp_camera_fb_return` is then called on
that frame exactly once, as the last action of the run. -/
theorem collaborator_calls (cam : Nat → Option camera_fb_t) (fuel : Nat) (w : World)
    (hbuf : ∀ fb, cam (w.fb_gets + 3) = some fb → u32 fb.len ≤ fb.buf.length)
    (hfuel : 65535 ≤ fuel) :
    ∃ w' warm rest, capture_and_send_frame cam fuel w = some w' ∧
      w'.trace = w.trace ++ [Event.sensor_get, Event.set_framesize] ++ warm
        ++ [Event.fb_get] ++ rest ∧
      count_fb_get w'.trace = count_fb_get w.trace + 4 ∧
      count_fb_get warm = 3 ∧
      serial_of warm = [] ∧
      returned_of warm = [w.fb_gets, w.fb_gets + 1, w.fb_gets + 2].filterMap cam ∧
      warm = [w.fb_gets, w.fb_gets + 1, w.fb_gets + 2].flatMap (fun k =>
        match cam k with
        | some old_fb => [Event.fb_get, Event.fb_return old_fb, Event.delay 30]
        | none => [Event.fb_get, Event.delay 30]) ∧
      (cam (w.fb_gets + 3) = none → rest = [] ∧ serial_of w'.trace = serial_of w.trace) ∧
      (∀ fb, cam (w.fb_gets + 3) = some fb →
        ∃ body, rest = body ++ [Event.fb_return fb] ∧
          count_fb_get body = 0 ∧ returned_of body = [] ∧
          serial_of body = serial_of (transfer_events fb) ∧
          body = transfer_events fb) := by
  have hexact : discard_events cam 3 w.fb_gets
      = [w.fb_gets, w.fb_gets + 1, w.fb_gets + 2].flatMap (fun k =>
        match cam k with
        | some old_fb => [Event.fb_get, Event.fb_return old_fb, Event.delay 30]
        | none => [Event.fb_get, Event.delay 30]) := by
    have e2 : w.fb_gets + 1 + 1 = w.fb_gets + 2 := rfl
    simp only [discard_events, e2, List.flatMap_cons, List.flatMap_nil]
    cases h0 : cam w.fb_gets <;> cases h1 : cam (w.fb_gets + 1) <;>
      cases h2 : cam (w.fb_gets + 2) <;> simp
  have hwarm : returned_of (discard_events cam 3 w.fb_gets)
      = [w.fb_gets, w.fb_gets + 1, w.fb_gets + 2].filterMap cam := by
    have e2 : w.fb_gets + 1 + 1 = w.fb_gets + 2 := rfl
    simp only [discard_events, returned_of_append, e2]
    cases h0 : cam w.fb_gets <;> cases h1 : cam (w.fb_gets + 1) <;>
      cases h2 : cam (w.fb_gets + 2) <;>
      simp [returned_of, List.filterMap_cons, h0, h1, h2]
  cases hc : cam (w.fb_gets + 3) with
  | none =>
    refine ⟨_, discard_events cam 3 w.fb_gets, [],
      capture_and_send_frame_none cam fuel w hc, ?_, ?_,
      count_fb_get_discard_events cam 3 w.fb_gets, serial_of_discard_events cam 3 w.fb_gets,
      hwarm, hexact, fun _ => ⟨rfl, ?_⟩, ?_⟩
    · simp [acquire_events]
    · simp only [count_fb_get_append, acquire_events, count_fb_get_discard_events]
      rfl
    · show serial_of (w.trace ++ acquire_events cam w.fb_gets) = _
      rw [serial_of_append, serial_of_acquire_events, List.append_nil]
    · intro fb hfb
      exact absurd hfb (by simp)
  | some fb =>
    have htc := total_chunks_of_lt (u32 fb.len) 512
    refine ⟨_, discard_events cam 3 w.fb_gets, transfer_events fb ++ [Event.fb_return fb],
      capture_and_send_frame_some cam fuel w fb hc (hbuf fb hc) (by omega), ?_, ?_,
      count_fb_get_discard_events cam 3 w.fb_gets, serial_of_discard_events cam 3 w.fb_gets,
      hwarm, hexact, ?_, ?_⟩
    · simp [acquire_events]
    · simp only [count_fb_get_append, acquire_events, transfer_events,
        count_fb_get_discard_events, count_fb_get_header_events, count_fb_get_chunks_events]
      rfl
    · intro h
      exact absurd h (by simp)
    · intro fb2 hfb2
      have : fb2 = fb := by
        have := hfb2
        simp at this
        exact this.symm
      subst this
      refine ⟨transfer_events fb2, rfl, ?_, ?_, rfl, rfl⟩
      · simp only [transfer_events, count_fb_get_append, count_fb_get_header_events,
          count_fb_get_chunks_events]
      · simp only [transfer_events, returned_of_append, returned_of_header_events,
          returned_of_chunks_events, List.append_nil]

/-- Witness of C8, amended: the driver that yields the 3-byte `small_frame` at every call. -/
theorem collaborator_calls_witness :
    ((∀ fb, small_cam (World.init.fb_gets + 3) = some fb → u32 fb.len ≤ fb.buf.length) ∧
      65535 ≤ 65535) ∧
    ∃ w' warm rest, capture_and_send_frame small_cam 65535 World.init = some w' ∧
      w'.trace = World.init.trace ++ [Event.sensor_get, Event.set_framesize] ++ warm
        ++ [Event.fb_get] ++ rest ∧
      count_fb_get w'.trace = count_fb_get World.init.trace + 4 ∧
      count_fb_get warm = 3 ∧
      serial_of warm = [] ∧
      returned_of warm
        = [World.init.fb_gets, World.init.fb_gets + 1, World.init.fb_gets + 2].filterMap
            small_cam ∧
      warm = [World.init.fb_gets, World.init.fb_gets + 1, World.init.fb_gets + 2].flatMap
        (fun k =>
          match small_cam k with
          | some old_fb => [Event.fb_get, Event.fb_return old_fb, Event.delay 30]
          | none => [Event.fb_get, Event.delay 30]) ∧
      (small_cam (World.init.fb_gets + 3) = none →
        rest = [] ∧ serial_of w'.trace = serial_of World.init.trace) ∧
      (∀ fb, small_cam (World.init.fb_gets + 3) = some fb →
        ∃ body, rest = body ++ [Event.fb_return fb] ∧
          count_fb_get body = 0 ∧ returned_of body = [] ∧
          serial_of body = serial_of (transfer_events fb) ∧
          body = transfer_events fb) :=
  ⟨⟨fun fb h => by
      have hfb : small_frame = fb := Option.some.inj h
      subst hfb
      decide, Nat.le_refl _⟩,
   collaborator_calls small_cam 65535 World.init
     (fun fb h => by
        have hfb : small_frame = fb := Option.some.inj h
        subst hfb
        decide)
     (Nat.le_refl _)⟩

/-- C9: for every buffer `B` of bytes and every bit position `p` in it (bit `p % 8` of byte
`p / 8`, so `B` is not empty), `compute_crc32` returns a checksum for `B` and for `B` with
that one bit inverted, and the two checksums differ. -/
theorem single_bit_flip_detected (B : List Nat) (hB : is_bytes B) (p : Nat)
    (hp : p < 8 * B.length) :
    ∃ c c', compute_crc32 B B.length = some c ∧
      compute_crc32 (flip_bit B (p / 8) (p % 8)) B.length = some c' ∧ c' ≠ c := by
  have hpos : p / 8 < B.length := by omega
  have hbit : p % 8 < 8 := Nat.mod_lt _ (by norm_num)
  have hF := flip_bit_is_bytes B hB (p / 8) (p % 8) hbit
  have hFc := compute_crc32_eq_ref _ hF
  rw [flip_bit_length] at hFc
  exact ⟨_, _, compute_crc32_eq_ref B hB, hFc, crc32_reference_flip_ne B hB _ _ hpos hbit⟩

/-- Witness of C9: bit 3 of the second byte of "123456789". -/
theorem single_bit_flip_detected_witness :
    (is_bytes check_input ∧ 11 < 8 * check_input.length) ∧
    ∃ c c', compute_crc32 check_input check_input.length = some c ∧
      compute_crc32 (flip_bit check_input (11 / 8) (11 % 8)) check_input.length = some c' ∧
      c' ≠ c :=
  ⟨⟨by decide, by decide⟩, single_bit_flip_detected check_input (by decide) 11 (by decide)⟩

/-- C10: for every frame whose buffer holds the `len` bytes it announces (`len` a 32-bit
value) and every loop index `i` below the 16-bit `total_chunks` the code computes, the 32-bit
offset `i * 512` does not wrap and is below `len`, the 32-bit subtraction `len - i * 512` does
not underflow, offset plus `this_len` is at most `len`, and so `compute_crc32` and
`send_chunk_packet`, called as in the loop, return without reading outside the buffer. -/
theorem chunk_reads_in_bounds (fb : camera_fb_t) (hL : fb.len < 2 ^ 32)
    (hbuf : fb.buf.length = fb.len) (i : Nat)
    (hi : i < total_chunks_of (u32 fb.len) (u16 CHUNK_SIZE)) :
    chunk_offset (u16 CHUNK_SIZE) i = i * 512 ∧
    i * 512 < fb.len ∧
    u32_sub (u32 fb.len) (chunk_offset (u16 CHUNK_SIZE) i) = fb.len - i * 512 ∧
    chunk_offset (u16 CHUNK_SIZE) i + this_len_of (u32 fb.len) (u16 CHUNK_SIZE) i ≤ fb.len ∧
    (∃ crc, compute_crc32 (fb.buf.drop (chunk_offset (u16 CHUNK_SIZE) i))
        (this_len_of (u32 fb.len) (u16 CHUNK_SIZE) i) = some crc) ∧
    ∀ w : World, ∃ w', send_chunk_packet i (fb.buf.drop (chunk_offset (u16 CHUNK_SIZE) i))
        (this_len_of (u32 fb.len) (u16 CHUNK_SIZE) i) w = some w' := by
  have hu : u32 fb.len = fb.len := Nat.mod_eq_of_lt hL
  rw [u16_chunk_size, hu] at hi
  rw [u16_chunk_size, hu]
  have h1 := chunk_in_frame fb.len i hL hi
  have h2 := total_chunks_of_lt fb.len 512
  have h3 := chunk_offset_eq i (by omega)
  have h4 := this_len_of_eq fb.len i hL h1
  have h5 := chunk_payload_length fb fb.len i hL (by omega) hi
  refine ⟨h3, h1, ?_, ?_, ⟨_, compute_crc32_eq _ _ h5⟩, fun w => ⟨_, send_chunk_packet_eq i _ _ w h5⟩⟩
  · rw [h3]
    unfold u32_sub
    norm_num at hL ⊢
    omega
  · rw [h3, h4]
    omega

/-- Witness of C10: the second chunk of the 1000-byte sample frame. -/
theorem chunk_reads_in_bounds_witness :
    (sample_frame.len < 2 ^ 32 ∧ sample_frame.buf.length = sample_frame.len ∧
      1 < total_chunks_of (u32 sample_frame.len) (u16 CHUNK_SIZE)) ∧
    (chunk_offset (u16 CHUNK_SIZE) 1 = 1 * 512 ∧
     1 * 512 < sample_frame.len ∧
     u32_sub (u32 sample_frame.len) (chunk_offset (u16 CHUNK_SIZE) 1)
       = sample_frame.len - 1 * 512 ∧
     chunk_offset (u16 CHUNK_SIZE) 1 + this_len_of (u32 sample_frame.len) (u16 CHUNK_SIZE) 1
       ≤ sample_frame.len ∧
     (∃ crc, compute_crc32 (sample_frame.buf.drop (chunk_offset (u16 CHUNK_SIZE) 1))
        (this_len_of (u32 sample_frame.len) (u16 CHUNK_SIZE) 1) = some crc) ∧
     ∀ w : World, ∃ w', send_chunk_packet 1
        (sample_frame.buf.drop (chunk_offset (u16 CHUNK_SIZE) 1))
        (this_len_of (u32 sample_frame.len) (u16 CHUNK_SIZE) 1) w = some w') :=
  ⟨⟨by decide, by simp [sample_frame], by decide⟩,
   chunk_reads_in_bounds sample_frame (by decide) (by simp [sample_frame]) 1 (by decide)⟩

end OvCam
